import Mathlib

/-!
# Verification of the mesh-preview geometric core

A shallow embedding, over exact rationals, of the geometric pipeline of the
mesh-preview proof of concept:

* `src/utils/volumeCalculator.js` — signed mesh volume via the divergence
  theorem (`calculateMeshVolume`, `signedVolumeOfTriangle`,
  `countGeometryStats`);
* `src/utils/baseFill.js` — base-fill synthesis (`createBaseFill`), 2D convex
  hull by Graham scan (`computeConvexHull2D`, `crossProduct`) and the shoelace
  polygon area (`calculateShapeArea`).

JavaScript numbers are modelled as `ℚ`.  The float comparator
`atan2(a.y-p.y, a.x-p.x) - atan2(b.y-p.y, b.x-p.x)` used to sort points by
polar angle is modelled by the exact order it computes: angles are compared by
half-plane class and by the sign of the 2D cross product, which is the exact
mathematical content of comparing `atan2` values.  `Array.prototype.sort` is
stable (ES2019), and for a consistent total comparator a stable sort has a
unique result, so it is modelled by insertion sort with the same ordering.
-/

namespace MeshPreview

/-- A 2D point (`THREE.Vector2`): the projection plane coordinates. -/
structure Pt where
  x : ℚ
  y : ℚ
deriving DecidableEq, Repr

/-- `crossProduct(o, a, b)` from `baseFill.js`:
`(a.x - o.x) * (b.y - o.y) - (a.y - o.y) * (b.x - o.x)`. -/
def crossProduct (o a b : Pt) : ℚ :=
  (a.x - o.x) * (b.y - o.y) - (a.y - o.y) * (b.x - o.x)

/-- Squared distance from `piv`, the comparator's tie-break key:
`(a.x - pivot.x) ** 2 + (a.y - pivot.y) ** 2`. -/
def dist2 (piv a : Pt) : ℚ :=
  (a.x - piv.x) * (a.x - piv.x) + (a.y - piv.y) * (a.y - piv.y)

/-- Which of the four half-axis/half-plane classes the `atan2` angle of
`a - piv` falls into, in increasing order of the `atan2` value:
class 0 = `(-π, 0)` (below), class 1 = angle `0` (right axis, including the
zero vector since `atan2(0,0) = 0`), class 2 = `(0, π)` (above),
class 3 = angle `π` (left axis). -/
def angClass (piv a : Pt) : ℕ :=
  if a.y - piv.y < 0 then 0
  else if a.y - piv.y = 0 then (if 0 ≤ a.x - piv.x then 1 else 3)
  else 2

/-- Exact order on `atan2` polar angles about `piv`: strictly smaller class,
or same open half-plane class with a strictly counter-clockwise cross
product.  This is the exact sign of `atan2(a) - atan2(b)` when negative. -/
def angLt (piv a b : Pt) : Prop :=
  angClass piv a < angClass piv b ∨
    (angClass piv a = angClass piv b ∧
      (angClass piv a = 0 ∨ angClass piv a = 2) ∧ 0 < crossProduct piv a b)

/-- Exact equality of `atan2` polar angles about `piv`. -/
def angEq (piv a b : Pt) : Prop :=
  angClass piv a = angClass piv b ∧
    (angClass piv a = 1 ∨ angClass piv a = 3 ∨ crossProduct piv a b = 0)

/-- The comparator of `computeConvexHull2D`'s sort, as a (total) order:
`a` precedes-or-ties `b` iff its angle is smaller, or the angles are equal
and `a` is at most as far from the pivot (`// If same angle, closer point
first`). -/
def polarLe (piv a b : Pt) : Prop :=
  angLt piv a b ∨ (angEq piv a b ∧ dist2 piv a ≤ dist2 piv b)

instance (piv a b : Pt) : Decidable (angLt piv a b) := by
  unfold angLt; exact inferInstance

instance (piv a b : Pt) : Decidable (angEq piv a b) := by
  unfold angEq; exact inferInstance

instance (piv : Pt) : DecidableRel (polarLe piv) := fun _ _ => by
  unfold polarLe; exact inferInstance

/-- The strict "lower, or same height and strictly more to the left" test of
the pivot-selection loop:
`points[i].y < points[start].y || (points[i].y === points[start].y && points[i].x < points[start].x)`. -/
def lowerLeft (p q : Pt) : Prop :=
  p.y < q.y ∨ (p.y = q.y ∧ p.x < q.x)

instance (p q : Pt) : Decidable (lowerLeft p q) := by
  unfold lowerLeft; exact inferInstance

/-- The pivot-selection loop of `computeConvexHull2D`: scan indices `1..`,
replacing the current best whenever a strictly lower-left point is found. -/
def pivotAux : ℕ × Pt → ℕ → List Pt → ℕ × Pt
  | best, _, [] => best
  | (bi, bp), i, q :: rest =>
      pivotAux (if lowerLeft q bp then (i, q) else (bi, bp)) (i + 1) rest

/-- The in-place swap `[points[0], points[start]] = [points[start], points[0]]`
on a non-empty list split as head and tail; the index is the position in the
full list.  Returns the new head and new tail. -/
def swapAtCons (a : Pt) (rest : List Pt) : ℕ → Pt × List Pt
  | 0 => (a, rest)
  | i + 1 => (rest.getD i a, rest.set i a)

/-- One step of the Graham-scan stack (stack stored top-first, pivot at the
bottom): pop while the stack has at least two entries and the last two stack
points together with the candidate fail to make a strict left turn
(`crossProduct(hull[len-2], hull[len-1], point) <= 0`), then push. -/
def keep : List Pt → Pt → List Pt
  | b :: a :: rest, p =>
      if crossProduct a b p ≤ 0 then keep (a :: rest) p else p :: b :: a :: rest
  | st, p => p :: st

/-- `computeConvexHull2D` from `baseFill.js`.  The first component is the
returned hull (pivot first, counter-clockwise).  The second component is the
state of the caller's `points` array when the function returns: the
destructuring swap moves the pivot to index 0 *in place* (the subsequent
`points.slice(1).sort(...)` works on a copy and does not mutate further). -/
def computeConvexHull2D : List Pt → List Pt × List Pt
  | [] => ([], [])
  | [p] => ([p], [p])
  | [p, q] => ([p, q], [p, q])
  | p0 :: rest0 =>
      let bi := (pivotAux (0, p0) 1 rest0).1
      let pr := swapAtCons p0 rest0 bi
      let sorted := List.insertionSort (polarLe pr.1) pr.2
      ((sorted.foldl keep [pr.1]).reverse, pr.1 :: pr.2)

/-- `calculateShapeArea` from `baseFill.js`: index loop accumulating
`points[i].x * points[j].y - points[j].x * points[i].y` with
`j = (i + 1) % n`, returning `area / 2`. -/
def calculateShapeArea (points : List Pt) : ℚ :=
  ((List.range points.length).foldl
    (fun area i =>
      let j := (i + 1) % points.length
      area + (points.getD i ⟨0, 0⟩).x * (points.getD j ⟨0, 0⟩).y
           - (points.getD j ⟨0, 0⟩).x * (points.getD i ⟨0, 0⟩).y)
    0) / 2

/-- The shoelace formula exactly as the specification words it:
`0.5 * Σ(x_i * y_(i+1) - x_(i+1) * y_i)` over the cyclically closed vertex
sequence. -/
def shoelaceSpec (points : List Pt) : ℚ :=
  (∑ i ∈ Finset.range points.length,
      ((points.getD i ⟨0, 0⟩).x * (points.getD ((i + 1) % points.length) ⟨0, 0⟩).y
        - (points.getD ((i + 1) % points.length) ⟨0, 0⟩).x * (points.getD i ⟨0, 0⟩).y)) / 2

/-- A 3D vector with exact coordinates (`THREE.Vector3`). -/
structure Vec3 where
  x : ℚ
  y : ℚ
  z : ℚ
deriving DecidableEq, Repr

/-- A 4×4 matrix in THREE's column-major element layout `e0..e15`
(`matrix.elements`). -/
structure Mat4 where
  e0 : ℚ
  e1 : ℚ
  e2 : ℚ
  e3 : ℚ
  e4 : ℚ
  e5 : ℚ
  e6 : ℚ
  e7 : ℚ
  e8 : ℚ
  e9 : ℚ
  e10 : ℚ
  e11 : ℚ
  e12 : ℚ
  e13 : ℚ
  e14 : ℚ
  e15 : ℚ
deriving DecidableEq, Repr

/-- `THREE.Vector3.applyMatrix4`: homogeneous transform with perspective
divide `w = 1 / (e3*x + e7*y + e11*z + e15)`.  (In `ℚ` division by zero gives
`0` where IEEE floats give infinities; every transform the pipeline applies is
affine, with `w = 1`.) -/
def applyMatrix4 (m : Mat4) (v : Vec3) : Vec3 :=
  let w := 1 / (m.e3 * v.x + m.e7 * v.y + m.e11 * v.z + m.e15)
  ⟨(m.e0 * v.x + m.e4 * v.y + m.e8 * v.z + m.e12) * w,
   (m.e1 * v.x + m.e5 * v.y + m.e9 * v.z + m.e13) * w,
   (m.e2 * v.x + m.e6 * v.y + m.e10 * v.z + m.e14) * w⟩

/-- The identity `Matrix4`. -/
def idMat4 : Mat4 :=
  ⟨1, 0, 0, 0, 0, 1, 0, 0, 0, 0, 1, 0, 0, 0, 0, 1⟩

/-- `THREE.Vector3.dot`. -/
def dotV (a b : Vec3) : ℚ := a.x * b.x + a.y * b.y + a.z * b.z

/-- `THREE.Vector3.crossVectors`. -/
def crossVectors (a b : Vec3) : Vec3 :=
  ⟨a.y * b.z - a.z * b.y, a.z * b.x - a.x * b.z, a.x * b.y - a.y * b.x⟩

/-- `signedVolumeOfTriangle` from `volumeCalculator.js`:
`v0.dot(cross(v1, v2)) / 6`. -/
def signedVolumeOfTriangle (v0 v1 v2 : Vec3) : ℚ :=
  dotV v0 (crossVectors v1 v2) / 6

/-- A renderable mesh as `calculateMeshVolume` consumes it: a position
attribute (list of vertices), an optional index attribute, and the resolved
`matrixWorld`. -/
structure Mesh where
  position : List Vec3
  index : Option (List ℕ)
  matrixWorld : Mat4

/-- Origin fallback used to totalise buffer reads in the model; it is never
consulted for an in-range access. -/
def v0def : Vec3 := ⟨0, 0, 0⟩

/-- The indexed accumulation loop of `calculateMeshVolume`, stepping through
the index buffer three entries at a time, resolving each index into the
position attribute, transforming by the world matrix, and accumulating the
signed tetrahedron volumes.  A trailing chunk of fewer than three indices
contributes `0` here; in JavaScript such a chunk reads past the end of the
buffer and poisons the sum with `NaN`, which `ℚ` cannot represent, so claims
about non-multiple-of-3 counts are settled on the access-offset model
(`loopStarts`/`accessedOffsets`) instead. -/
def volumeAccumIndexed (pos : List Vec3) (w : Mat4) : List ℕ → ℚ
  | i0 :: i1 :: i2 :: rest =>
      signedVolumeOfTriangle
        (applyMatrix4 w (pos.getD i0 v0def))
        (applyMatrix4 w (pos.getD i1 v0def))
        (applyMatrix4 w (pos.getD i2 v0def))
      + volumeAccumIndexed pos w rest
  | _ => 0

/-- The non-indexed accumulation loop of `calculateMeshVolume`: consecutive
vertex triples. -/
def volumeAccumDirect (w : Mat4) : List Vec3 → ℚ
  | a :: b :: c :: rest =>
      signedVolumeOfTriangle
        (applyMatrix4 w a) (applyMatrix4 w b) (applyMatrix4 w c)
      + volumeAccumDirect w rest
  | _ => 0

/-- `calculateMeshVolume` from `volumeCalculator.js` for a mesh that has a
position attribute (a mesh with no geometry or no position attribute returns
`0` before the loop and carries no data to model). -/
def calculateMeshVolume (m : Mesh) : ℚ :=
  match m.index with
  | some idx => volumeAccumIndexed m.position m.matrixWorld idx
  | none => volumeAccumDirect m.matrixWorld m.position

/-- Consecutive triples of a list, a trailing partial group discarded. -/
def chunk3 {α : Type} : List α → List (α × α × α)
  | a :: b :: c :: rest => (a, b, c) :: chunk3 rest
  | _ => []

/-- The triangle list of a mesh in winding order, vertices transformed to
world space: indices (or positions, for non-indexed geometry) grouped in
threes. -/
def worldTriangles (m : Mesh) : List (Vec3 × Vec3 × Vec3) :=
  match m.index with
  | some idx =>
      chunk3 (idx.map fun i => applyMatrix4 m.matrixWorld (m.position.getD i v0def))
  | none => chunk3 (m.position.map (applyMatrix4 m.matrixWorld))

/-- The specification's volume: the sum over every triangle `(v0, v1, v2)` of
the triangle list of `dot(v0, cross(v1, v2)) / 6`. -/
def specMeshVolume (m : Mesh) : ℚ :=
  ((worldTriangles m).map fun t => dotV t.1 (crossVectors t.2.1 t.2.2) / 6).sum

/-- The loop starts of `for (let i = 0; i < count; i += 3)`: all multiples of
3 below `count`. -/
def loopStarts (count : ℕ) : List ℕ :=
  (List.range count).filter (fun i => i % 3 = 0)

/-- The buffer offsets the accumulation loop of `calculateMeshVolume` reads:
`i`, `i + 1` and `i + 2` for every loop start `i`. -/
def accessedOffsets (count : ℕ) : List ℕ :=
  (loopStarts count).flatMap (fun i => [i, i + 1, i + 2])

/-- `countGeometryStats` from `volumeCalculator.js`: vertex count and
`Math.floor` of `indexCount / 3` (indexed) or `vertexCount / 3`
(non-indexed). -/
def countGeometryStats (m : Mesh) : ℕ × ℕ :=
  let vertices := m.position.length
  let triangles := match m.index with
    | some idx => idx.length / 3
    | none => vertices / 3
  (vertices, triangles)

/-- One mesh node of the scene graph as the traversal in `createBaseFill`
sees it (`child.isMesh && child.geometry` with a position attribute). -/
structure MeshGeom where
  position : List Vec3
  matrixWorld : Mat4

/-- The projection loop of `createBaseFill`: every vertex of every mesh,
transformed to world space, projected onto the XZ plane
(`new THREE.Vector2(vertex.x, vertex.z)`). -/
def projectedPoints (model : List MeshGeom) : List Pt :=
  model.flatMap fun g =>
    g.position.map fun v =>
      let wv := applyMatrix4 g.matrixWorld v
      ⟨wv.x, wv.z⟩

/-- The result record of `createBaseFill`: `{ mesh, volume }`.  The produced
extruded solid is abstracted as the data determining the geometry: the hull
shape and the extrusion depth. -/
structure BaseFillResult where
  mesh : Option (List Pt × ℚ)
  volume : ℚ
deriving DecidableEq, Repr

/-- `createBaseFill` from `baseFill.js`.  `bboxMinY` is the supplied bounding
box's `min.y`.  Branches in source order: fewer than 3 projected points ⇒ no
fill; hull degenerate (< 3 points) ⇒ no fill; fill height
`max(0, bbox.min.y)` at most `0.001` ⇒ no fill; otherwise extrude and report
`abs(area(hull)) * fillHeight`. -/
def createBaseFill (model : List MeshGeom) (bboxMinY : ℚ) : BaseFillResult :=
  let pts := projectedPoints model
  if pts.length < 3 then ⟨none, 0⟩
  else
    let hull := (computeConvexHull2D pts).1
    if hull.length < 3 then ⟨none, 0⟩
    else
      let fillHeight := max 0 bboxMinY
      if fillHeight ≤ 1 / 1000 then ⟨none, 0⟩
      else ⟨some (hull, fillHeight), |calculateShapeArea hull| * fillHeight⟩

/-- The consecutive cyclic edges of a polygon's vertex list. -/
def cyclicPairs {α : Type} : List α → List (α × α)
  | [] => []
  | a :: rest => (a :: rest).zip (rest ++ [a])

/-- `q` lies on or inside the convex polygon `hull` (listed counter-clockwise):
it is on or to the left of every directed cyclic edge. -/
def insideHull (hull : List Pt) (q : Pt) : Prop :=
  ∀ e ∈ cyclicPairs hull, 0 ≤ crossProduct e.1 e.2 q

instance (hull : List Pt) (q : Pt) : Decidable (insideHull hull q) := by
  unfold insideHull; exact inferInstance

/-- The `Mesh` well-formedness invariant of the data model: the index count
(indexed) or vertex count (non-indexed) is divisible by 3, and every index is
in range.  (For a malformed count JavaScript reads past the end of the buffer
and the sum is poisoned by `NaN`; see `volume_loop_offsets_and_stats`.) -/
def meshWellFormed (m : Mesh) : Prop :=
  match m.index with
  | some idx => idx.length % 3 = 0 ∧ ∀ i ∈ idx, i < m.position.length
  | none => m.position.length % 3 = 0

/-- Reversal of the winding of every triangle: the second and third entry of
each consecutive triple are exchanged. -/
def revTriples {α : Type} : List α → List α
  | a :: b :: c :: rest => a :: c :: b :: revTriples rest
  | l => l

/-- A mesh with every triangle's winding reversed (two vertices of each
triangle swapped): on the index list for indexed geometry, on the vertex
list for non-indexed geometry. -/
def reverseWinding (m : Mesh) : Mesh :=
  match m.index with
  | some idx => ⟨m.position, some (revTriples idx), m.matrixWorld⟩
  | none => ⟨revTriples m.position, none, m.matrixWorld⟩

/-- `piv` is weakly lower-left of `q` — the property every non-pivot point
has after pivot selection. -/
def pivotBelow (piv q : Pt) : Prop :=
  piv.y < q.y ∨ (piv.y = q.y ∧ piv.x ≤ q.x)

instance (piv q : Pt) : Decidable (pivotBelow piv q) := by
  unfold pivotBelow; exact inferInstance

/-- The Graham scan applied to a chosen pivot and the remaining points:
sort by the polar comparator, fold the pop-and-push step starting from the
stack `[piv]`, and read the hull bottom-up. -/
def grahamHull (piv : Pt) (rest : List Pt) : List Pt :=
  ((List.insertionSort (polarLe piv) rest).foldl keep [piv]).reverse

instance : Inhabited Pt := ⟨⟨0, 0⟩⟩

/-- Strict left turns along the scan stack (stored top-first): every three
consecutive entries `c, b, a` (with `a` deepest) turn counter-clockwise. -/
def Convex3 : List Pt → Prop
  | c :: b :: a :: rest => 0 < crossProduct a b c ∧ Convex3 (b :: a :: rest)
  | _ => True

/-- `q` lies on or to the left of every directed edge of the scan stack read
bottom-up (the stack is stored top-first, so each adjacent pair `x, y` is
the edge running from `y` up to `x`). -/
def EdgesOK (st : List Pt) (q : Pt) : Prop :=
  List.Chain' (fun x y => 0 ≤ crossProduct y x q) st

/-- Polar angles strictly increase up the scan stack (stored top-first). -/
def AngChainT (piv : Pt) (t : List Pt) : Prop :=
  List.Chain' (fun x y => angLt piv y x) t

/-- The Graham-scan loop invariant, for pivot `piv`, processed prefix `D`
of the sorted point list, and current stack `st` (stored top-first):
the stack ends at the pivot; its entries are processed points; every
processed point sorts no later than the stack top; angles strictly increase
up the stack; consecutive turns are strictly counter-clockwise; every
processed point, and the pivot, lies on or left of every stack edge; and a
duplicate of the pivot can only be the sole entry above the bottom. -/
structure ScanInv (piv : Pt) (D : List Pt) (st : List Pt) : Prop where
  decomp : ∃ t, st = t ++ [piv]
  mem : ∀ x ∈ st, x = piv ∨ x ∈ D
  top : ∀ q ∈ D, polarLe piv q st.headI
  chain : AngChainT piv st.dropLast
  conv : Convex3 st
  edges : ∀ q ∈ D, EdgesOK st q
  edgesPiv : EdgesOK st piv
  dupTop : piv ∈ st.dropLast → st.dropLast = [piv]

/-- What one pop-and-push step `keep st p` guarantees about its result
`res`, relative to the stack `st` it started from: the new stack is `p`
pushed on a non-empty suffix of `st`, and the chain, convexity, edge and
duplicate-pivot clauses of the invariant hold for it (edges both for the
processed points `D`, for the pushed point itself, and for the pivot). -/
structure KeepOut (piv p : Pt) (D : List Pt) (st res : List Pt) : Prop where
  tail_suf : res.tail <:+ st
  head_eq : res = p :: res.tail
  tail_ne : res.tail ≠ []
  chain : AngChainT piv res.dropLast
  conv : Convex3 res
  edges : ∀ q ∈ D, EdgesOK res q
  edgesP : EdgesOK res p
  edgesPiv : EdgesOK res piv
  dupNew : piv ∈ res.dropLast → res.dropLast = [piv]

end MeshPreview

namespace MeshPreview

/-! ### Helper lemmas: swap is a permutation, degenerate hulls, fold sums -/

/-- Replacing index `i` of `rest` by `a` and promoting the displaced element
to the head permutes `a :: rest`. -/
theorem getD_set_perm (a : Pt) :
    ∀ (rest : List Pt) (i : ℕ), (rest.getD i a :: rest.set i a).Perm (a :: rest) := by
  intro rest
  induction rest with
  | nil => intro i; cases i <;> exact List.Perm.refl _
  | cons b r ih =>
      intro i
      cases i with
      | zero => exact List.Perm.swap a b r
      | succ i =>
          have h1 : (r.getD i a :: b :: r.set i a).Perm (b :: r.getD i a :: r.set i a) :=
            List.Perm.swap b (r.getD i a) (r.set i a)
          have h2 : (b :: r.getD i a :: r.set i a).Perm (b :: a :: r) :=
            List.Perm.cons b (ih i)
          have h3 : (b :: a :: r).Perm (a :: b :: r) := List.Perm.swap a b r
          exact (h1.trans h2).trans h3

/-- The swapped array holds the same points as the original. -/
theorem swapAtCons_perm (a : Pt) (rest : List Pt) (i : ℕ) :
    ((swapAtCons a rest i).1 :: (swapAtCons a rest i).2).Perm (a :: rest) := by
  cases i with
  | zero => exact List.Perm.refl _
  | succ i => exact getD_set_perm a rest i

/-- For fewer than three points the hull builder returns its input as both
components. -/
theorem computeConvexHull2D_short (pts : List Pt) (h : pts.length < 3) :
    computeConvexHull2D pts = (pts, pts) := by
  match pts, h with
  | [], _ => rfl
  | [p], _ => rfl
  | [p, q], _ => rfl
  | p :: q :: r :: rest, h => simp at h; omega

/-- Folding an add-and-subtract accumulator over `List.range` is the
corresponding `Finset.range` sum. -/
theorem foldl_range_sum (f g : ℕ → ℚ) :
    ∀ n : ℕ, (List.range n).foldl (fun area i => area + f i - g i) 0
      = ∑ i ∈ Finset.range n, (f i - g i) := by
  have key : ∀ (n : ℕ) (c : ℚ), (List.range n).foldl (fun area i => area + f i - g i) c
      = c + ∑ i ∈ Finset.range n, (f i - g i) := by
    intro n
    induction n with
    | zero => intro c; simp
    | succ n ih =>
        intro c
        rw [List.range_succ, List.foldl_append, Finset.sum_range_succ, ih]
        simp [List.foldl]
        ring
  intro n
  rw [key n 0, zero_add]

/-! ### C4, C10, C2: behaviour of `createBaseFill` -/

/-- C4: For every model and bounding box, if the fill height
`max(0, minElevation)` is at most the tolerance `0.001`, the base-fill result
has an absent solid (`mesh` is `null`) and volume exactly `0`, regardless of
the footprint's point count or complexity. -/
theorem createBaseFill_no_fill_below_tolerance (model : List MeshGeom) (bboxMinY : ℚ)
    (h : max 0 bboxMinY ≤ 1 / 1000) :
    createBaseFill model bboxMinY = ⟨none, 0⟩ := by
  simp only [createBaseFill]
  split_ifs <;> rfl

theorem createBaseFill_no_fill_below_tolerance_witness :
    max 0 (1 / 2000 : ℚ) ≤ 1 / 1000 ∧
      createBaseFill [⟨[⟨0, 0, 0⟩, ⟨10, 0, 0⟩, ⟨10, 0, 10⟩, ⟨0, 0, 10⟩], idMat4⟩] (1 / 2000)
        = ⟨none, 0⟩ :=
  ⟨by norm_num,
   createBaseFill_no_fill_below_tolerance
     [⟨[⟨0, 0, 0⟩, ⟨10, 0, 0⟩, ⟨10, 0, 10⟩, ⟨0, 0, 10⟩], idMat4⟩] (1 / 2000) (by norm_num)⟩

/-- C10: For every model and bounding box, the base-fill result has
non-negative volume, and whenever the returned solid is absent (`mesh` is
`null`) the volume is exactly `0`. -/
theorem createBaseFill_volume_invariant (model : List MeshGeom) (bboxMinY : ℚ) :
    0 ≤ (createBaseFill model bboxMinY).volume ∧
      ((createBaseFill model bboxMinY).mesh = none →
        (createBaseFill model bboxMinY).volume = 0) := by
  simp only [createBaseFill]
  split
  · exact ⟨le_refl 0, fun _ => rfl⟩
  · split
    · exact ⟨le_refl 0, fun _ => rfl⟩
    · split
      · exact ⟨le_refl 0, fun _ => rfl⟩
      · rename_i hfill
        constructor
        · have h1 : (0 : ℚ) ≤ |calculateShapeArea (computeConvexHull2D (projectedPoints model)).1| :=
            abs_nonneg _
          have h2 : (0 : ℚ) ≤ max 0 bboxMinY := le_max_left 0 bboxMinY
          exact mul_nonneg h1 h2
        · intro hmesh
          simp at hmesh

/-- C2: whenever the projected points produce a hull with at least 3 vertices
and the fill height `max(0, min elevation)` exceeds the `0.001` tolerance,
the reported base-fill volume is exactly
`abs(shoelace area of hull) * fillHeight`. -/
theorem createBaseFill_volume_formula (model : List MeshGeom) (bboxMinY : ℚ)
    (hhull : 3 ≤ ((computeConvexHull2D (projectedPoints model)).1).length)
    (hfill : 1 / 1000 < max 0 bboxMinY) :
    (createBaseFill model bboxMinY).volume
      = |calculateShapeArea (computeConvexHull2D (projectedPoints model)).1|
          * max 0 bboxMinY := by
  simp only [createBaseFill]
  split
  · rename_i hshort
    rw [computeConvexHull2D_short _ hshort] at hhull
    simp only [] at hhull
    omega
  · split
    · rename_i hdeg
      omega
    · rw [if_neg (not_le.mpr hfill)]

theorem createBaseFill_volume_formula_witness :
    3 ≤ ((computeConvexHull2D (projectedPoints
          [⟨[⟨0, 0, 0⟩, ⟨10, 0, 0⟩, ⟨10, 0, 10⟩, ⟨0, 0, 10⟩], idMat4⟩])).1).length ∧
      (1 / 1000 : ℚ) < max 0 2 ∧
      (createBaseFill [⟨[⟨0, 0, 0⟩, ⟨10, 0, 0⟩, ⟨10, 0, 10⟩, ⟨0, 0, 10⟩], idMat4⟩] 2).volume
        = 200 := by
  refine ⟨by with_unfolding_all decide, by norm_num, ?_⟩
  have h := createBaseFill_volume_formula
    [⟨[⟨0, 0, 0⟩, ⟨10, 0, 0⟩, ⟨10, 0, 10⟩, ⟨0, 0, 10⟩], idMat4⟩] 2
    (by with_unfolding_all decide) (by norm_num)
  rw [h]
  with_unfolding_all decide

end MeshPreview

namespace MeshPreview

/-! ### C6: the hull builder mutates the caller's array (swap to front) -/

/-- C6 counterexample: the hull builder does *not* leave the caller-supplied
point sequence unchanged.  For `[(0,1), (0,0), (1,0)]` the pivot `(0,0)` sits
at index 1 and the destructuring swap moves it to index 0, so after the call
the caller's array reads `[(0,0), (0,1), (1,0)]`. -/
theorem computeConvexHull2D_mutates_input :
    (computeConvexHull2D [⟨0, 1⟩, ⟨0, 0⟩, ⟨1, 0⟩]).2 ≠ [⟨0, 1⟩, ⟨0, 0⟩, ⟨1, 0⟩] := by
  with_unfolding_all decide

/-- C6 amended: the hull builder may reorder the caller-supplied sequence (it
swaps the pivot to position 0 in place), but it preserves the points as a
multiset: the post-call state of the array is a permutation of the input. -/
theorem computeConvexHull2D_post_perm (pts : List Pt) :
    ((computeConvexHull2D pts).2).Perm pts := by
  match pts with
  | [] => exact List.Perm.refl _
  | [p] => exact List.Perm.refl _
  | [p, q] => exact List.Perm.refl _
  | p0 :: q :: r :: rest0 =>
      exact swapAtCons_perm p0 (q :: r :: rest0) _

/-! ### C9: `calculateShapeArea` is the signed shoelace formula -/

/-- C9: for every ordered polygon boundary of at least 3 points the
polygon-area function returns the signed shoelace value
`0.5 * Σ(x_i * y_(i+1) - x_(i+1) * y_i)` over the cyclically closed vertex
sequence, and the absolute area of the 10×10 square is exactly `100`
(hence within the `1e-2` tolerance of `100.0`). -/
theorem calculateShapeArea_shoelace :
    (∀ points : List Pt, 3 ≤ points.length → calculateShapeArea points = shoelaceSpec points) ∧
      |calculateShapeArea [⟨0, 0⟩, ⟨10, 0⟩, ⟨10, 10⟩, ⟨0, 10⟩]| = 100 := by
  constructor
  · intro points _
    unfold calculateShapeArea shoelaceSpec
    rw [foldl_range_sum]
  · with_unfolding_all decide

theorem calculateShapeArea_shoelace_witness :
    3 ≤ ([⟨0, 0⟩, ⟨10, 0⟩, ⟨10, 10⟩, ⟨0, 10⟩] : List Pt).length ∧
      calculateShapeArea [⟨0, 0⟩, ⟨10, 0⟩, ⟨10, 10⟩, ⟨0, 10⟩]
        = shoelaceSpec [⟨0, 0⟩, ⟨10, 0⟩, ⟨10, 10⟩, ⟨0, 10⟩] :=
  ⟨by decide,
   calculateShapeArea_shoelace.1 [⟨0, 0⟩, ⟨10, 0⟩, ⟨10, 10⟩, ⟨0, 10⟩] (by decide)⟩

/-! ### C5: the volume loop does not discard the trailing partial triangle -/

/-- C5 counterexample: for an index (or vertex) count of 4 the accumulation
loop `for (i = 0; i < count; i += 3)` runs twice, not `floor(4/3) = 1` times,
and its second iteration reads offsets `4` and `5`, which are out of range. -/
theorem volume_loop_partial_triangle_oob :
    (loopStarts 4).length ≠ 4 / 3 ∧ ∃ o ∈ accessedOffsets 4, ¬o < 4 := by
  constructor
  · decide
  · exact ⟨5, by decide, by decide⟩

/-- C5 amended: the loop `for (i = 0; i < count; i += 3)` of the volume
estimator performs `⌈count / 3⌉` iterations and reads offsets `i`, `i+1`,
`i+2` for each loop start `i`; every read is in range exactly when `count` is
divisible by 3 (otherwise the trailing partial triangle is read past the end
of the buffer, not discarded), and the triangle count reported by
`countGeometryStats` is `floor(count/3)` in both the indexed and non-indexed
cases. -/
theorem volume_loop_offsets_and_stats :
    (∀ count : ℕ, (loopStarts count).length = (count + 2) / 3) ∧
      (∀ count : ℕ, (∀ o ∈ accessedOffsets count, o < count) ↔ count % 3 = 0) ∧
      (∀ (pos : List Vec3) (w : Mat4) (idx : List ℕ),
        (countGeometryStats ⟨pos, some idx, w⟩).2 = idx.length / 3 ∧
          (countGeometryStats ⟨pos, none, w⟩).2 = pos.length / 3) := by
  refine ⟨?_, ?_, ?_⟩
  · intro count
    induction count with
    | zero => decide
    | succ n ih =>
        unfold loopStarts at *
        rw [List.range_succ, List.filter_append, List.length_append, ih]
        by_cases h : n % 3 = 0
        · simp [h]
          omega
        · simp [h]
          omega
  · intro count
    constructor
    · intro h
      by_contra hm
      have hpos : 0 < count := by omega
      have hstart : 3 * ((count - 1) / 3) ∈ loopStarts count := by
        unfold loopStarts
        rw [List.mem_filter, List.mem_range]
        refine ⟨by omega, ?_⟩
        simp only [decide_eq_true_eq]
        omega
      have hoob : 3 * ((count - 1) / 3) + 2 ∈ accessedOffsets count := by
        unfold accessedOffsets
        rw [List.mem_flatMap]
        exact ⟨3 * ((count - 1) / 3), hstart, by simp⟩
      have := h _ hoob
      omega
    · intro h o ho
      unfold accessedOffsets loopStarts at ho
      rw [List.mem_flatMap] at ho
      obtain ⟨i, hi, hoi⟩ := ho
      rw [List.mem_filter, List.mem_range] at hi
      simp only [decide_eq_true_eq] at hi
      simp only [List.mem_cons, List.not_mem_nil, or_false] at hoi
      omega
  · intro pos w idx
    exact ⟨rfl, rfl⟩

end MeshPreview

namespace MeshPreview

/-! ### C1, C7: the volume estimator -/

/-- The indexed accumulation loop is the sum of the spec's per-triangle
signed tetrahedron volumes over the chunked, resolved, transformed triangle
list. -/
theorem accumIndexed_eq (pos : List Vec3) (w : Mat4) (idx : List ℕ) :
    volumeAccumIndexed pos w idx
      = ((chunk3 (idx.map fun i => applyMatrix4 w (pos.getD i v0def))).map
          fun t => dotV t.1 (crossVectors t.2.1 t.2.2) / 6).sum := by
  induction idx using volumeAccumIndexed.induct pos w with
  | case1 i0 i1 i2 rest ih =>
      simp only [volumeAccumIndexed, List.map_cons, chunk3, List.sum_cons, ih,
        signedVolumeOfTriangle]
  | case2 l h =>
      match l, h with
      | [], _ => rfl
      | [a], _ => rfl
      | [a, b], _ => rfl
      | a :: b :: c :: r, h => exact (h a b c r rfl).elim

/-- The non-indexed accumulation loop is the sum of the spec's per-triangle
signed tetrahedron volumes over the chunked, transformed triangle list. -/
theorem accumDirect_eq (w : Mat4) (pos : List Vec3) :
    volumeAccumDirect w pos
      = ((chunk3 (pos.map (applyMatrix4 w))).map
          fun t => dotV t.1 (crossVectors t.2.1 t.2.2) / 6).sum := by
  induction pos using volumeAccumDirect.induct w with
  | case1 a b c rest ih =>
      simp only [volumeAccumDirect, List.map_cons, chunk3, List.sum_cons, ih,
        signedVolumeOfTriangle]
  | case2 l h =>
      match l, h with
      | [], _ => rfl
      | [a], _ => rfl
      | [a, b], _ => rfl
      | a :: b :: c :: r, h => exact (h a b c r rfl).elim

/-- C1: for every well-formed mesh with a position attribute, the volume
estimator returns the sum, over every triangle `(v0, v1, v2)` of the
(indexed or non-indexed) triangle list with vertices transformed to world
space, of `dot(v0, cross(v1, v2)) / 6`. -/
theorem calculateMeshVolume_eq_spec (m : Mesh) (_wf : meshWellFormed m) :
    calculateMeshVolume m = specMeshVolume m := by
  unfold calculateMeshVolume specMeshVolume worldTriangles
  match m with
  | ⟨pos, some idx, w⟩ => exact accumIndexed_eq pos w idx
  | ⟨pos, none, w⟩ => exact accumDirect_eq w pos

theorem calculateMeshVolume_eq_spec_witness :
    meshWellFormed ⟨[⟨0, 0, 0⟩, ⟨1, 0, 0⟩, ⟨0, 1, 0⟩, ⟨0, 0, 1⟩],
        some [0, 2, 1, 0, 1, 3, 0, 3, 2, 1, 2, 3], idMat4⟩ ∧
      calculateMeshVolume ⟨[⟨0, 0, 0⟩, ⟨1, 0, 0⟩, ⟨0, 1, 0⟩, ⟨0, 0, 1⟩],
          some [0, 2, 1, 0, 1, 3, 0, 3, 2, 1, 2, 3], idMat4⟩
        = specMeshVolume ⟨[⟨0, 0, 0⟩, ⟨1, 0, 0⟩, ⟨0, 1, 0⟩, ⟨0, 0, 1⟩],
          some [0, 2, 1, 0, 1, 3, 0, 3, 2, 1, 2, 3], idMat4⟩ :=
  ⟨by constructor <;> decide,
   calculateMeshVolume_eq_spec _ (by constructor <;> decide)⟩

/-- Exchanging the last two vertices of a triangle negates its signed
tetrahedron volume. -/
theorem signedVolumeOfTriangle_swap (v0 v1 v2 : Vec3) :
    signedVolumeOfTriangle v0 v2 v1 = -signedVolumeOfTriangle v0 v1 v2 := by
  unfold signedVolumeOfTriangle dotV crossVectors
  ring

/-- Unfolding lemma for one indexed loop iteration. -/
theorem volumeAccumIndexed_cons (pos : List Vec3) (w : Mat4) (i0 i1 i2 : ℕ) (rest : List ℕ) :
    volumeAccumIndexed pos w (i0 :: i1 :: i2 :: rest)
      = signedVolumeOfTriangle
          (applyMatrix4 w (pos.getD i0 v0def))
          (applyMatrix4 w (pos.getD i1 v0def))
          (applyMatrix4 w (pos.getD i2 v0def))
        + volumeAccumIndexed pos w rest := rfl

/-- Unfolding lemma for one non-indexed loop iteration. -/
theorem volumeAccumDirect_cons (w : Mat4) (a b c : Vec3) (rest : List Vec3) :
    volumeAccumDirect w (a :: b :: c :: rest)
      = signedVolumeOfTriangle (applyMatrix4 w a) (applyMatrix4 w b) (applyMatrix4 w c)
        + volumeAccumDirect w rest := rfl

theorem accumIndexed_revTriples (pos : List Vec3) (w : Mat4) (idx : List ℕ) :
    volumeAccumIndexed pos w (revTriples idx) = -volumeAccumIndexed pos w idx := by
  induction idx using volumeAccumIndexed.induct pos w with
  | case1 i0 i1 i2 rest ih =>
      rw [show revTriples (i0 :: i1 :: i2 :: rest) = i0 :: i2 :: i1 :: revTriples rest from rfl,
        volumeAccumIndexed_cons, volumeAccumIndexed_cons, ih, signedVolumeOfTriangle_swap]
      ring
  | case2 l h =>
      match l, h with
      | [], _ => norm_num [revTriples, volumeAccumIndexed]
      | [a], _ => norm_num [revTriples, volumeAccumIndexed]
      | [a, b], _ => norm_num [revTriples, volumeAccumIndexed]
      | a :: b :: c :: r, h => exact (h a b c r rfl).elim

theorem accumDirect_revTriples (w : Mat4) (pos : List Vec3) :
    volumeAccumDirect w (revTriples pos) = -volumeAccumDirect w pos := by
  induction pos using volumeAccumDirect.induct w with
  | case1 a b c rest ih =>
      rw [show revTriples (a :: b :: c :: rest) = a :: c :: b :: revTriples rest from rfl,
        volumeAccumDirect_cons, volumeAccumDirect_cons, ih, signedVolumeOfTriangle_swap]
      ring
  | case2 l h =>
      match l, h with
      | [], _ => norm_num [revTriples, volumeAccumDirect]
      | [a], _ => norm_num [revTriples, volumeAccumDirect]
      | [a, b], _ => norm_num [revTriples, volumeAccumDirect]
      | a :: b :: c :: r, h => exact (h a b c r rfl).elim

/-- C7: reversing the triangle winding of every triangle of a well-formed
mesh negates the signed output of the volume estimator and leaves its
absolute value unchanged. -/
theorem reverse_winding_negates_volume (m : Mesh) (_wf : meshWellFormed m) :
    calculateMeshVolume (reverseWinding m) = -calculateMeshVolume m ∧
      |calculateMeshVolume (reverseWinding m)| = |calculateMeshVolume m| := by
  have hneg : calculateMeshVolume (reverseWinding m) = -calculateMeshVolume m := by
    unfold calculateMeshVolume reverseWinding
    match m with
    | ⟨pos, some idx, w⟩ => exact accumIndexed_revTriples pos w idx
    | ⟨pos, none, w⟩ => exact accumDirect_revTriples w pos
  exact ⟨hneg, by rw [hneg, abs_neg]⟩

theorem reverse_winding_negates_volume_witness :
    meshWellFormed ⟨[⟨0, 0, 0⟩, ⟨1, 0, 0⟩, ⟨0, 1, 0⟩, ⟨0, 0, 1⟩],
        some [0, 2, 1, 0, 1, 3, 0, 3, 2, 1, 2, 3], idMat4⟩ ∧
      calculateMeshVolume (reverseWinding ⟨[⟨0, 0, 0⟩, ⟨1, 0, 0⟩, ⟨0, 1, 0⟩, ⟨0, 0, 1⟩],
          some [0, 2, 1, 0, 1, 3, 0, 3, 2, 1, 2, 3], idMat4⟩)
        = -calculateMeshVolume ⟨[⟨0, 0, 0⟩, ⟨1, 0, 0⟩, ⟨0, 1, 0⟩, ⟨0, 0, 1⟩],
          some [0, 2, 1, 0, 1, 3, 0, 3, 2, 1, 2, 3], idMat4⟩ :=
  ⟨by constructor <;> decide,
   (reverse_winding_negates_volume _ (by constructor <;> decide)).1⟩

end MeshPreview

namespace MeshPreview

/-! ### The polar-angle order: classification, totality, transitivity,
antisymmetry -/

/-- Case analysis on the angle class of `a` about `piv`. -/
theorem angClass_spec (piv a : Pt) :
    (angClass piv a = 0 ∧ a.y - piv.y < 0) ∨
      (angClass piv a = 1 ∧ a.y - piv.y = 0 ∧ 0 ≤ a.x - piv.x) ∨
      (angClass piv a = 2 ∧ 0 < a.y - piv.y) ∨
      (angClass piv a = 3 ∧ a.y - piv.y = 0 ∧ a.x - piv.x < 0) := by
  unfold angClass
  split_ifs with h1 h2 h3
  · exact Or.inl ⟨rfl, h1⟩
  · exact Or.inr (Or.inl ⟨rfl, h2, h3⟩)
  · exact Or.inr (Or.inr (Or.inr ⟨rfl, h2, by linarith [lt_of_not_le h3]⟩))
  · exact Or.inr (Or.inr (Or.inl ⟨rfl, by rcases lt_trichotomy (a.y - piv.y) 0 with h | h | h
      <;> first | exact absurd h h1 | exact absurd h h2 | exact h⟩))

/-- Reversing the outer two arguments negates the cross product. -/
theorem crossProduct_swap (o a b : Pt) : crossProduct o b a = -crossProduct o a b := by
  unfold crossProduct; ring

/-- The cross product of a point with itself vanishes. -/
theorem crossProduct_self (o a : Pt) : crossProduct o a a = 0 := by
  unfold crossProduct; ring

/-- The three-point cocycle identity that powers every transitivity
argument: weighting the cross products by the heights above the pivot. -/
theorem cross_cocycle (piv a b c : Pt) :
    (b.y - piv.y) * crossProduct piv a c
      = (a.y - piv.y) * crossProduct piv b c + (c.y - piv.y) * crossProduct piv a b := by
  unfold crossProduct; ring

/-- Points weakly above the pivot sit in class 1 or class 2. -/
theorem pivotBelow_class (piv q : Pt) (h : pivotBelow piv q) :
    angClass piv q = 1 ∨ angClass piv q = 2 := by
  rcases angClass_spec piv q with ⟨hc, hy⟩ | ⟨hc, _, _⟩ | ⟨hc, _⟩ | ⟨hc, hy, hx⟩
  · rcases h with h | ⟨h, _⟩ <;> [linarith; (exact absurd hy (by rw [h]; simp))]
  · exact Or.inl hc
  · exact Or.inr hc
  · rcases h with h | ⟨hyy, hxx⟩
    · linarith
    · rw [hyy] at hy; linarith [hy, hxx]
  
/-- The polar order is total. -/
theorem polarLe_total (piv a b : Pt) : polarLe piv a b ∨ polarLe piv b a := by
  unfold polarLe angLt angEq
  rcases Nat.lt_trichotomy (angClass piv a) (angClass piv b) with hc | hc | hc
  · exact Or.inl (Or.inl (Or.inl hc))
  · have h01 : angClass piv a = 0 ∨ angClass piv a = 1 ∨ angClass piv a = 2 ∨
        angClass piv a = 3 := by
      rcases angClass_spec piv a with ⟨h, _⟩ | ⟨h, _⟩ | ⟨h, _⟩ | ⟨h, _⟩ <;> tauto
    rcases h01 with h1 | h1 | h1 | h1
    · rcases lt_trichotomy (crossProduct piv a b) 0 with hx | hx | hx
      · refine Or.inr (Or.inl (Or.inr ⟨hc.symm, Or.inl (by rw [hc] at h1; exact h1), ?_⟩))
        rw [crossProduct_swap]; linarith
      · rcases le_total (dist2 piv a) (dist2 piv b) with hd | hd
        · exact Or.inl (Or.inr ⟨⟨hc, Or.inr (Or.inr hx)⟩, hd⟩)
        · refine Or.inr (Or.inr ⟨⟨hc.symm, Or.inr (Or.inr ?_)⟩, hd⟩)
          rw [crossProduct_swap, hx]; ring
      · exact Or.inl (Or.inl (Or.inr ⟨hc, Or.inl h1, hx⟩))
    · rcases le_total (dist2 piv a) (dist2 piv b) with hd | hd
      · exact Or.inl (Or.inr ⟨⟨hc, Or.inl h1⟩, hd⟩)
      · exact Or.inr (Or.inr ⟨⟨hc.symm, Or.inl (by rw [← hc]; exact h1)⟩, hd⟩)
    · rcases lt_trichotomy (crossProduct piv a b) 0 with hx | hx | hx
      · refine Or.inr (Or.inl (Or.inr ⟨hc.symm, Or.inr (by rw [hc] at h1; exact h1), ?_⟩))
        rw [crossProduct_swap]; linarith
      · rcases le_total (dist2 piv a) (dist2 piv b) with hd | hd
        · exact Or.inl (Or.inr ⟨⟨hc, Or.inr (Or.inr hx)⟩, hd⟩)
        · refine Or.inr (Or.inr ⟨⟨hc.symm, Or.inr (Or.inr ?_)⟩, hd⟩)
          rw [crossProduct_swap, hx]; ring
      · exact Or.inl (Or.inl (Or.inr ⟨hc, Or.inr h1, hx⟩))
    · rcases le_total (dist2 piv a) (dist2 piv b) with hd | hd
      · exact Or.inl (Or.inr ⟨⟨hc, Or.inr (Or.inl h1)⟩, hd⟩)
      · exact Or.inr (Or.inr ⟨⟨hc.symm, Or.inr (Or.inl (by rw [← hc]; exact h1))⟩, hd⟩)
  · exact Or.inr (Or.inl (Or.inl hc))

end MeshPreview

namespace MeshPreview

/-- Orientation composes across a lower half-plane: if `b` is
counter-clockwise of (or aligned with) `a`, and `c` of `b`, with at least
one strict, then `c` is strictly counter-clockwise of `a`. -/
theorem cross_trans_neg (piv a b c : Pt)
    (hya : a.y - piv.y < 0) (hyb : b.y - piv.y < 0) (hyc : c.y - piv.y < 0)
    (h1 : 0 ≤ crossProduct piv a b) (h2 : 0 ≤ crossProduct piv b c)
    (hs : 0 < crossProduct piv a b ∨ 0 < crossProduct piv b c) :
    0 < crossProduct piv a c := by
  have key := cross_cocycle piv a b c
  have m3 : (b.y - piv.y) * crossProduct piv a c < 0 := by
    rcases hs with hs | hs
    · nlinarith
    · nlinarith
  by_contra hcon
  push_neg at hcon
  nlinarith

/-- Orientation composes across the upper half-plane. -/
theorem cross_trans_pos (piv a b c : Pt)
    (hya : 0 < a.y - piv.y) (hyb : 0 < b.y - piv.y) (hyc : 0 < c.y - piv.y)
    (h1 : 0 ≤ crossProduct piv a b) (h2 : 0 ≤ crossProduct piv b c)
    (hs : 0 < crossProduct piv a b ∨ 0 < crossProduct piv b c) :
    0 < crossProduct piv a c := by
  have key := cross_cocycle piv a b c
  have m3 : 0 < (b.y - piv.y) * crossProduct piv a c := by
    rcases hs with hs | hs
    · nlinarith
    · nlinarith
  by_contra hcon
  push_neg at hcon
  nlinarith

/-- Alignment composes whenever `b` is off the horizontal axis. -/
theorem cross_trans_zero (piv a b c : Pt) (hyb : b.y - piv.y ≠ 0)
    (h1 : crossProduct piv a b = 0) (h2 : crossProduct piv b c = 0) :
    crossProduct piv a c = 0 := by
  have key := cross_cocycle piv a b c
  rw [h1, h2] at key
  simp at key
  rcases key with h | h
  · exact absurd h hyb
  · exact h

/-- The strict polar-angle order is transitive. -/
theorem angLt_trans (piv a b c : Pt) (hab : angLt piv a b) (hbc : angLt piv b c) :
    angLt piv a c := by
  rcases hab with hab | ⟨hab, habm, habx⟩
  · rcases hbc with hbc | ⟨hbc, _, _⟩
    · exact Or.inl (lt_trans hab hbc)
    · exact Or.inl (by omega)
  · rcases hbc with hbc | ⟨hbc, hbcm, hbcx⟩
    · exact Or.inl (by omega)
    · refine Or.inr ⟨by omega, habm, ?_⟩
      rcases habm with h0 | h2
      · rcases angClass_spec piv a with ⟨_, hya⟩ | ⟨hc, _⟩ | ⟨hc, _⟩ | ⟨hc, _⟩ <;>
          [skip; omega; omega; omega]
        rcases angClass_spec piv b with ⟨_, hyb⟩ | ⟨hc, _⟩ | ⟨hc, _⟩ | ⟨hc, _⟩ <;>
          [skip; omega; omega; omega]
        rcases angClass_spec piv c with ⟨_, hyc⟩ | ⟨hc, _⟩ | ⟨hc, _⟩ | ⟨hc, _⟩ <;>
          [skip; omega; omega; omega]
        exact cross_trans_neg piv a b c hya hyb hyc (le_of_lt habx) (le_of_lt hbcx)
          (Or.inl habx)
      · rcases angClass_spec piv a with ⟨hc, _⟩ | ⟨hc, _⟩ | ⟨_, hya⟩ | ⟨hc, _⟩ <;>
          [omega; omega; skip; omega]
        rcases angClass_spec piv b with ⟨hc, _⟩ | ⟨hc, _⟩ | ⟨_, hyb⟩ | ⟨hc, _⟩ <;>
          [omega; omega; skip; omega]
        rcases angClass_spec piv c with ⟨hc, _⟩ | ⟨hc, _⟩ | ⟨_, hyc⟩ | ⟨hc, _⟩ <;>
          [omega; omega; skip; omega]
        exact cross_trans_pos piv a b c hya hyb hyc (le_of_lt habx) (le_of_lt hbcx)
          (Or.inl habx)

/-- Strict order then equal angle gives strict order. -/
theorem angLt_of_angLt_of_angEq (piv a b c : Pt)
    (hab : angLt piv a b) (hbc : angEq piv b c) : angLt piv a c := by
  obtain ⟨hbcc, hbcx⟩ := hbc
  rcases hab with hab | ⟨hab, habm, habx⟩
  · exact Or.inl (by omega)
  · refine Or.inr ⟨by omega, habm, ?_⟩
    rcases habm with h0 | h2
    · rcases angClass_spec piv a with ⟨_, hya⟩ | ⟨hc, _⟩ | ⟨hc, _⟩ | ⟨hc, _⟩ <;>
        [skip; omega; omega; omega]
      rcases angClass_spec piv b with ⟨_, hyb⟩ | ⟨hc, _⟩ | ⟨hc, _⟩ | ⟨hc, _⟩ <;>
        [skip; omega; omega; omega]
      rcases angClass_spec piv c with ⟨_, hyc⟩ | ⟨hc, _⟩ | ⟨hc, _⟩ | ⟨hc, _⟩ <;>
        [skip; omega; omega; omega]
      have hx : crossProduct piv b c = 0 := by
        rcases hbcx with h | h | h <;> [omega; omega; exact h]
      exact cross_trans_neg piv a b c hya hyb hyc (le_of_lt habx) (le_of_eq hx.symm)
        (Or.inl habx)
    · rcases angClass_spec piv a with ⟨hc, _⟩ | ⟨hc, _⟩ | ⟨_, hya⟩ | ⟨hc, _⟩ <;>
        [omega; omega; skip; omega]
      rcases angClass_spec piv b with ⟨hc, _⟩ | ⟨hc, _⟩ | ⟨_, hyb⟩ | ⟨hc, _⟩ <;>
        [omega; omega; skip; omega]
      rcases angClass_spec piv c with ⟨hc, _⟩ | ⟨hc, _⟩ | ⟨_, hyc⟩ | ⟨hc, _⟩ <;>
        [omega; omega; skip; omega]
      have hx : crossProduct piv b c = 0 := by
        rcases hbcx with h | h | h <;> [omega; omega; exact h]
      exact cross_trans_pos piv a b c hya hyb hyc (le_of_lt habx) (le_of_eq hx.symm)
        (Or.inl habx)

/-- Equal angle then strict order gives strict order. -/
theorem angLt_of_angEq_of_angLt (piv a b c : Pt)
    (hab : angEq piv a b) (hbc : angLt piv b c) : angLt piv a c := by
  obtain ⟨habc, habx⟩ := hab
  rcases hbc with hbc | ⟨hbc, hbcm, hbcx⟩
  · exact Or.inl (by omega)
  · refine Or.inr ⟨by omega, by omega, ?_⟩
    rcases hbcm with h0 | h2
    · rcases angClass_spec piv a with ⟨_, hya⟩ | ⟨hc, _⟩ | ⟨hc, _⟩ | ⟨hc, _⟩ <;>
        [skip; omega; omega; omega]
      rcases angClass_spec piv b with ⟨_, hyb⟩ | ⟨hc, _⟩ | ⟨hc, _⟩ | ⟨hc, _⟩ <;>
        [skip; omega; omega; omega]
      rcases angClass_spec piv c with ⟨_, hyc⟩ | ⟨hc, _⟩ | ⟨hc, _⟩ | ⟨hc, _⟩ <;>
        [skip; omega; omega; omega]
      have hx : crossProduct piv a b = 0 := by
        rcases habx with h | h | h <;> [omega; omega; exact h]
      exact cross_trans_neg piv a b c hya hyb hyc (le_of_eq hx.symm) (le_of_lt hbcx)
        (Or.inr hbcx)
    · rcases angClass_spec piv a with ⟨hc, _⟩ | ⟨hc, _⟩ | ⟨_, hya⟩ | ⟨hc, _⟩ <;>
        [omega; omega; skip; omega]
      rcases angClass_spec piv b with ⟨hc, _⟩ | ⟨hc, _⟩ | ⟨_, hyb⟩ | ⟨hc, _⟩ <;>
        [omega; omega; skip; omega]
      rcases angClass_spec piv c with ⟨hc, _⟩ | ⟨hc, _⟩ | ⟨_, hyc⟩ | ⟨hc, _⟩ <;>
        [omega; omega; skip; omega]
      have hx : crossProduct piv a b = 0 := by
        rcases habx with h | h | h <;> [omega; omega; exact h]
      exact cross_trans_pos piv a b c hya hyb hyc (le_of_eq hx.symm) (le_of_lt hbcx)
        (Or.inr hbcx)

/-- Equal angle is transitive. -/
theorem angEq_trans (piv a b c : Pt) (hab : angEq piv a b) (hbc : angEq piv b c) :
    angEq piv a c := by
  obtain ⟨habc, habx⟩ := hab
  obtain ⟨hbcc, hbcx⟩ := hbc
  refine ⟨by omega, ?_⟩
  rcases habx with h | h | h
  · exact Or.inl h
  · exact Or.inr (Or.inl h)
  · rcases hbcx with h' | h' | h'
    · exact Or.inl (by omega)
    · exact Or.inr (Or.inl (by omega))
    · rcases angClass_spec piv b with ⟨hcb, hyb⟩ | ⟨hcb, _, _⟩ | ⟨hcb, hyb⟩ | ⟨hcb, _, _⟩
      · exact Or.inr (Or.inr (cross_trans_zero piv a b c (ne_of_lt hyb) h h'))
      · exact Or.inl (by omega)
      · exact Or.inr (Or.inr (cross_trans_zero piv a b c (ne_of_gt hyb) h h'))
      · exact Or.inr (Or.inl (by omega))

/-- The sort comparator's order is transitive. -/
theorem polarLe_trans (piv a b c : Pt) (hab : polarLe piv a b) (hbc : polarLe piv b c) :
    polarLe piv a c := by
  rcases hab with hab | ⟨hab, habd⟩
  · rcases hbc with hbc | ⟨hbc, _⟩
    · exact Or.inl (angLt_trans piv a b c hab hbc)
    · exact Or.inl (angLt_of_angLt_of_angEq piv a b c hab hbc)
  · rcases hbc with hbc | ⟨hbc, hbcd⟩
    · exact Or.inl (angLt_of_angEq_of_angLt piv a b c hab hbc)
    · exact Or.inr ⟨angEq_trans piv a b c hab hbc, le_trans habd hbcd⟩

end MeshPreview

namespace MeshPreview

/-- Nonnegative numbers with equal squares are equal. -/
theorem sq_eq_nonneg_inj (A B : ℚ) (hA : 0 ≤ A) (hB : 0 ≤ B) (h : A * A = B * B) :
    A = B := by
  apply le_antisymm
  · nlinarith
  · nlinarith

/-- The comparator's key (angle, then squared distance) identifies points:
equal angle and equal distance from the pivot forces equality. -/
theorem angEq_dist2_inj (piv a b : Pt) (he : angEq piv a b)
    (hd : dist2 piv a = dist2 piv b) : a = b := by
  obtain ⟨hc, hx⟩ := he
  unfold dist2 at hd
  obtain ⟨ax, ay⟩ := a
  obtain ⟨bx, byy⟩ := b
  simp only [Pt.mk.injEq]
  simp only at hc hx hd
  rcases angClass_spec piv ⟨ax, ay⟩ with ⟨hca, hya⟩ | ⟨hca, hya, hxa⟩ |
      ⟨hca, hya⟩ | ⟨hca, hya, hxa⟩ <;>
    rcases angClass_spec piv ⟨bx, byy⟩ with ⟨hcb, hyb⟩ | ⟨hcb, hyb, hxb⟩ |
      ⟨hcb, hyb⟩ | ⟨hcb, hyb, hxb⟩ <;>
    simp only at hca hcb hya hyb <;>
    try omega
  · -- both class 0 (strictly below): parallel, equal norm, same side
    have he1 : (ax - piv.x) * (byy - piv.y) = (ay - piv.y) * (bx - piv.x) := by
      have : crossProduct piv ⟨ax, ay⟩ ⟨bx, byy⟩ = 0 := by
        rcases hx with h | h | h <;> [omega; omega; exact h]
      unfold crossProduct at this
      simp only at this
      linarith
    have key : ((ax - piv.x) * (ax - piv.x) + (ay - piv.y) * (ay - piv.y))
        * ((byy - piv.y) * (byy - piv.y) - (ay - piv.y) * (ay - piv.y)) = 0 := by
      linear_combination ((ax - piv.x) * (byy - piv.y) + (ay - piv.y) * (bx - piv.x)) * he1
        - (ay - piv.y) * (ay - piv.y) * hd
    have hpos : 0 < (ax - piv.x) * (ax - piv.x) + (ay - piv.y) * (ay - piv.y) := by
      nlinarith
    have hz : (byy - piv.y) * (byy - piv.y) - (ay - piv.y) * (ay - piv.y) = 0 := by
      rcases mul_eq_zero.mp key with h | h
      · exact absurd h (ne_of_gt hpos)
      · exact h
    have hyy : byy = ay := by
      have h3 : ((byy - piv.y) - (ay - piv.y)) * ((byy - piv.y) + (ay - piv.y)) = 0 := by
        linear_combination hz
      rcases mul_eq_zero.mp h3 with h | h
      · linarith
      · linarith
    have hxx : ax = bx := by
      have hyne : ay - piv.y ≠ 0 := ne_of_lt hya
      have : (ay - piv.y) * (ax - piv.x) = (ay - piv.y) * (bx - piv.x) := by
        rw [hyy] at he1
        linarith
      have := mul_left_cancel₀ hyne this
      linarith
    exact ⟨hxx, hyy.symm⟩
  · -- both class 1 (on the right axis)
    have hxx : ax - piv.x = bx - piv.x := by
      apply sq_eq_nonneg_inj _ _ hxa hxb
      nlinarith
    constructor
    · linarith
    · linarith
  · -- both class 2 (strictly above)
    have he1 : (ax - piv.x) * (byy - piv.y) = (ay - piv.y) * (bx - piv.x) := by
      have : crossProduct piv ⟨ax, ay⟩ ⟨bx, byy⟩ = 0 := by
        rcases hx with h | h | h <;> [omega; omega; exact h]
      unfold crossProduct at this
      simp only at this
      linarith
    have key : ((ax - piv.x) * (ax - piv.x) + (ay - piv.y) * (ay - piv.y))
        * ((byy - piv.y) * (byy - piv.y) - (ay - piv.y) * (ay - piv.y)) = 0 := by
      linear_combination ((ax - piv.x) * (byy - piv.y) + (ay - piv.y) * (bx - piv.x)) * he1
        - (ay - piv.y) * (ay - piv.y) * hd
    have hpos : 0 < (ax - piv.x) * (ax - piv.x) + (ay - piv.y) * (ay - piv.y) := by
      nlinarith
    have hz : (byy - piv.y) * (byy - piv.y) - (ay - piv.y) * (ay - piv.y) = 0 := by
      rcases mul_eq_zero.mp key with h | h
      · exact absurd h (ne_of_gt hpos)
      · exact h
    have hyy : byy = ay := by
      have h3 : ((byy - piv.y) - (ay - piv.y)) * ((byy - piv.y) + (ay - piv.y)) = 0 := by
        linear_combination hz
      rcases mul_eq_zero.mp h3 with h | h
      · linarith
      · linarith
    have hxx : ax = bx := by
      have hyne : ay - piv.y ≠ 0 := ne_of_gt hya
      have : (ay - piv.y) * (ax - piv.x) = (ay - piv.y) * (bx - piv.x) := by
        rw [hyy] at he1
        linarith
      have := mul_left_cancel₀ hyne this
      linarith
    exact ⟨hxx, hyy.symm⟩
  · -- both class 3 (on the left axis)
    have hxx : -(ax - piv.x) = -(bx - piv.x) := by
      apply sq_eq_nonneg_inj _ _ (by linarith) (by linarith)
      nlinarith
    constructor
    · linarith
    · linarith

/-- The strict angle order is asymmetric and excludes angle equality. -/
theorem angLt_asymm (piv a b : Pt) (h1 : angLt piv a b) :
    ¬angLt piv b a ∧ ¬angEq piv b a := by
  constructor
  · intro h2
    rcases h1 with h1 | ⟨h1, h1m, h1x⟩ <;> rcases h2 with h2 | ⟨h2, h2m, h2x⟩
    · omega
    · omega
    · omega
    · rw [crossProduct_swap] at h2x
      linarith
  · intro h2
    obtain ⟨h2c, h2x⟩ := h2
    rcases h1 with h1 | ⟨h1, h1m, h1x⟩
    · omega
    · rcases h2x with h | h | h
      · omega
      · omega
      · rw [crossProduct_swap] at h
        linarith

/-- The comparator's order is antisymmetric. -/
theorem polarLe_antisymm (piv a b : Pt) (h1 : polarLe piv a b) (h2 : polarLe piv b a) :
    a = b := by
  rcases h1 with h1 | ⟨h1e, h1d⟩
  · rcases h2 with h2 | ⟨h2e, _⟩
    · exact absurd h2 (angLt_asymm piv a b h1).1
    · exact absurd h2e (angLt_asymm piv a b h1).2
  · rcases h2 with h2 | ⟨h2e, h2d⟩
    · exact absurd h2 fun h2 => (angLt_asymm piv b a h2).2 h1e
    · exact angEq_dist2_inj piv a b h1e (le_antisymm h1d h2d)

/-- The comparator's order is reflexive. -/
theorem polarLe_refl (piv a : Pt) : polarLe piv a a :=
  Or.inr ⟨⟨rfl, Or.inr (Or.inr (crossProduct_self piv a))⟩, le_refl _⟩

/-- A1: between points weakly above the pivot, the sort order implies a
counter-clockwise-or-collinear cross product. -/
theorem polarLe_cross_nonneg (piv a b : Pt) (ha : pivotBelow piv a)
    (hb : pivotBelow piv b) (h : polarLe piv a b) : 0 ≤ crossProduct piv a b := by
  rcases pivotBelow_class piv a ha with hca | hca <;>
    rcases pivotBelow_class piv b hb with hcb | hcb
  · -- class 1, class 1: both on the right axis, cross vanishes
    rcases angClass_spec piv a with ⟨h1, _⟩ | ⟨h1, hya, hxa⟩ | ⟨h1, _⟩ | ⟨h1, _⟩ <;>
      try omega
    rcases angClass_spec piv b with ⟨h2, _⟩ | ⟨h2, hyb, hxb⟩ | ⟨h2, _⟩ | ⟨h2, _⟩ <;>
      try omega
    unfold crossProduct
    nlinarith
  · -- class 1, class 2: cross = dxa * dyb ≥ 0
    rcases angClass_spec piv a with ⟨h1, _⟩ | ⟨h1, hya, hxa⟩ | ⟨h1, _⟩ | ⟨h1, _⟩ <;>
      try omega
    rcases angClass_spec piv b with ⟨h2, _⟩ | ⟨h2, _, _⟩ | ⟨h2, hyb⟩ | ⟨h2, _⟩ <;>
      try omega
    unfold crossProduct
    have h0 : (a.y - piv.y) * (b.x - piv.x) = 0 := by rw [hya]; ring
    nlinarith [mul_nonneg hxa hyb.le]
  · -- class 2, class 1: the comparator rejects this order
    rcases h with h | ⟨he, _⟩
    · rcases h with h | ⟨h, _, _⟩ <;> omega
    · obtain ⟨he, _⟩ := he
      omega
  · -- class 2, class 2: the order gives the cross sign directly
    rcases h with h | ⟨he, _⟩
    · rcases h with h | ⟨_, _, hx⟩
      · omega
      · exact le_of_lt hx
    · obtain ⟨_, hx⟩ := he
      rcases hx with h | h | h
      · omega
      · omega
      · exact le_of_eq h.symm

end MeshPreview

namespace MeshPreview

/-! ### Pivot selection: the scanned minimum is the lex-least point -/

/-- Failing the strict lower-left test is exactly the weak converse order. -/
theorem not_lowerLeft_iff (q p : Pt) : ¬lowerLeft q p ↔ pivotBelow p q := by
  unfold lowerLeft pivotBelow
  constructor
  · intro h
    push_neg at h
    obtain ⟨h1, h2⟩ := h
    rcases lt_trichotomy p.y q.y with hy | hy | hy
    · exact Or.inl hy
    · exact Or.inr ⟨hy, le_of_not_lt fun hx => absurd (h2 hy.symm) (not_le.mpr hx)⟩
    · exact absurd hy (not_lt.mpr h1)
  · intro h
    push_neg
    constructor
    · rcases h with h | ⟨h, _⟩ <;> linarith
    · intro hy
      rcases h with h | ⟨_, h⟩ <;> linarith

/-- The weak lower-left order is transitive. -/
theorem pivotBelow_trans (a b c : Pt) (h1 : pivotBelow a b) (h2 : pivotBelow b c) :
    pivotBelow a c := by
  rcases h1 with h1 | ⟨h1, h1x⟩ <;> rcases h2 with h2 | ⟨h2, h2x⟩
  · exact Or.inl (lt_trans h1 h2)
  · exact Or.inl (by linarith)
  · exact Or.inl (by linarith)
  · exact Or.inr ⟨by linarith, by linarith⟩

/-- The weak lower-left order is antisymmetric. -/
theorem pivotBelow_antisymm (a b : Pt) (h1 : pivotBelow a b) (h2 : pivotBelow b a) :
    a = b := by
  obtain ⟨ax, ay⟩ := a
  obtain ⟨bx, byy⟩ := b
  simp only [Pt.mk.injEq]
  rcases h1 with h1 | ⟨h1, h1x⟩ <;> rcases h2 with h2 | ⟨h2, h2x⟩ <;>
    simp only at * <;> constructor <;> linarith

/-- The pivot loop returns a point of the scanned prefix (or the initial
best) that is weakly lower-left of the initial best and of every scanned
point. -/
theorem pivotAux_min : ∀ (rest : List Pt) (bi i : ℕ) (bp : Pt),
    ((pivotAux (bi, bp) i rest).2 = bp ∨ (pivotAux (bi, bp) i rest).2 ∈ rest) ∧
      pivotBelow (pivotAux (bi, bp) i rest).2 bp ∧
      ∀ q ∈ rest, pivotBelow (pivotAux (bi, bp) i rest).2 q := by
  intro rest
  induction rest with
  | nil =>
      intro bi i bp
      exact ⟨Or.inl rfl, Or.inr ⟨rfl, le_refl _⟩, fun q hq => absurd hq (List.not_mem_nil q)⟩
  | cons q rest' ih =>
      intro bi i bp
      have hstep : pivotAux (bi, bp) i (q :: rest')
          = pivotAux (if lowerLeft q bp then (i, q) else (bi, bp)) (i + 1) rest' := rfl
      rw [hstep]
      by_cases hq : lowerLeft q bp
      · rw [if_pos hq]
        obtain ⟨hmem, hbest, hall⟩ := ih i (i + 1) q
        have hqbp : pivotBelow q bp := by
          rcases hq with h | ⟨h, hx⟩
          · exact Or.inl h
          · exact Or.inr ⟨h, le_of_lt hx⟩
        refine ⟨?_, pivotBelow_trans _ _ _ hbest hqbp, ?_⟩
        · rcases hmem with h | h
          · exact Or.inr (by rw [h]; exact List.mem_cons_self q rest')
          · exact Or.inr (List.mem_cons_of_mem q h)
        · intro q' hq'
          rcases List.mem_cons.mp hq' with h | h
          · exact h ▸ hbest
          · exact hall q' h
      · rw [if_neg hq]
        obtain ⟨hmem, hbest, hall⟩ := ih bi (i + 1) bp
        refine ⟨?_, hbest, ?_⟩
        · rcases hmem with h | h
          · exact Or.inl h
          · exact Or.inr (List.mem_cons_of_mem q h)
        · intro q' hq'
          rcases List.mem_cons.mp hq' with h | h
          · exact h ▸ pivotBelow_trans _ _ _ hbest ((not_lowerLeft_iff q bp).mp hq)
          · exact hall q' h

/-- The pivot loop's index always points at its value. -/
theorem pivotAux_index (d : Pt) : ∀ (rest pre : List Pt) (bi : ℕ) (bp : Pt),
    bi < pre.length → pre.getD bi d = bp →
      (pivotAux (bi, bp) pre.length rest).1 < (pre ++ rest).length ∧
        (pre ++ rest).getD (pivotAux (bi, bp) pre.length rest).1 d
          = (pivotAux (bi, bp) pre.length rest).2 := by
  intro rest
  induction rest with
  | nil =>
      intro pre bi bp hlt hget
      constructor
      · simpa using hlt
      · simpa [List.getD_append _ _ _ _ hlt] using hget
  | cons q rest' ih =>
      intro pre bi bp hlt hget
      have hstep : pivotAux (bi, bp) pre.length (q :: rest')
          = pivotAux (if lowerLeft q bp then (pre.length, q) else (bi, bp))
              (pre.length + 1) rest' := rfl
      rw [hstep, List.append_cons pre q rest']
      have hlen : (pre ++ [q]).length = pre.length + 1 := by simp
      by_cases hq : lowerLeft q bp
      · rw [if_pos hq]
        have h1 : pre.length < (pre ++ [q]).length := by simp
        have h2 : (pre ++ [q]).getD pre.length d = q := by
          rw [List.getD_append_right _ _ _ _ (le_refl _)]
          simp
        have := ih (pre ++ [q]) pre.length q h1 h2
        rwa [hlen] at this
      · rw [if_neg hq]
        have h1 : bi < (pre ++ [q]).length := by simp; omega
        have h2 : (pre ++ [q]).getD bi d = bp := by
          rw [List.getD_append _ _ _ _ hlt]
          exact hget
        have := ih (pre ++ [q]) bi bp h1 h2
        rwa [hlen] at this

/-- Decomposition of `computeConvexHull2D` on a list of at least three
points: the hull is the Graham scan of the lex-least pivot and the remaining
points, the swapped array is a permutation of the input, and the pivot is
weakly lower-left of every input point. -/
theorem computeConvexHull2D_long (pts : List Pt) (h : 3 ≤ pts.length) :
    ∃ piv rest,
      computeConvexHull2D pts = (grahamHull piv rest, piv :: rest) ∧
        (piv :: rest).Perm pts ∧ ∀ q ∈ pts, pivotBelow piv q := by
  match pts, h with
  | p0 :: p1 :: p2 :: rest0, _ =>
    have hidx := pivotAux_index p0 (p1 :: p2 :: rest0) [p0] 0 p0 (by simp) (by simp)
    simp only [List.length_cons, List.length_nil] at hidx
    obtain ⟨hlt, hget⟩ := hidx
    have hmin := pivotAux_min (p1 :: p2 :: rest0) 0 1 p0
    obtain ⟨_, hbest, hall⟩ := hmin
    set bi := (pivotAux (0, p0) 1 (p1 :: p2 :: rest0)).1 with hbi
    set bp := (pivotAux (0, p0) 1 (p1 :: p2 :: rest0)).2 with hbp
    have hswap1 : (swapAtCons p0 (p1 :: p2 :: rest0) bi).1 = bp := by
      cases hcase : bi with
      | zero =>
          rw [hcase] at hget
          have hp : p0 = bp := by simpa using hget
          exact hp
      | succ i =>
          show (p1 :: p2 :: rest0).getD i p0 = bp
          rw [hcase] at hget hlt
          have hi : i < (p1 :: p2 :: rest0).length := by
            simpa using hlt
          rw [List.getD_eq_getElem _ _ hi]
          rw [show ([p0] ++ p1 :: p2 :: rest0).getD (i + 1) p0
              = (p1 :: p2 :: rest0).getD i p0 from
            List.getD_append_right _ _ _ _ (by simp)] at hget
          rw [List.getD_eq_getElem _ _ hi] at hget
          exact hget
    refine ⟨bp, (swapAtCons p0 (p1 :: p2 :: rest0) bi).2, ?_, ?_, ?_⟩
    · have hcomp : computeConvexHull2D (p0 :: p1 :: p2 :: rest0)
          = (grahamHull (swapAtCons p0 (p1 :: p2 :: rest0) bi).1
              (swapAtCons p0 (p1 :: p2 :: rest0) bi).2,
             (swapAtCons p0 (p1 :: p2 :: rest0) bi).1
               :: (swapAtCons p0 (p1 :: p2 :: rest0) bi).2) := rfl
      rw [hcomp, hswap1]
    · have := swapAtCons_perm p0 (p1 :: p2 :: rest0) bi
      rwa [hswap1] at this
    · intro q hq
      rcases List.mem_cons.mp hq with h | h
      · exact h ▸ hbest
      · exact hall q h

end MeshPreview

namespace MeshPreview

/-! ### C8: the hull depends only on the multiset of input points -/

/-- The sorted phase is canonical: permuted inputs sort to the same list,
because the comparator is a total preorder whose key identifies points. -/
theorem insertionSort_perm_eq (piv : Pt) (rest1 rest2 : List Pt)
    (hperm : rest1.Perm rest2) :
    List.insertionSort (polarLe piv) rest1 = List.insertionSort (polarLe piv) rest2 := by
  haveI : IsTotal Pt (polarLe piv) := ⟨fun a b => polarLe_total piv a b⟩
  haveI : IsTrans Pt (polarLe piv) := ⟨fun a b c => polarLe_trans piv a b c⟩
  haveI : IsAntisymm Pt (polarLe piv) := ⟨fun a b => polarLe_antisymm piv a b⟩
  exact List.eq_of_perm_of_sorted
    (((List.perm_insertionSort _ rest1).trans hperm).trans
      (List.perm_insertionSort _ rest2).symm)
    (List.sorted_insertionSort _ rest1)
    (List.sorted_insertionSort _ rest2)

/-- The Graham scan is invariant under permutation of the non-pivot points. -/
theorem grahamHull_perm (piv : Pt) (rest1 rest2 : List Pt) (hperm : rest1.Perm rest2) :
    grahamHull piv rest1 = grahamHull piv rest2 := by
  unfold grahamHull
  rw [insertionSort_perm_eq piv rest1 rest2 hperm]

/-- C8: for every input point sequence and every permutation of it, the hull
builder yields the same hull polygon up to cyclic rotation of the starting
vertex (for at least three points it is in fact literally the same list; for
degenerate inputs the echoed input lists are cyclic rotations of each
other). -/
theorem hull_order_invariant (pts1 pts2 : List Pt) (h : pts1.Perm pts2) :
    ∃ k, (computeConvexHull2D pts2).1 = ((computeConvexHull2D pts1).1).rotate k := by
  by_cases hlen : 3 ≤ pts1.length
  · have hlen2 : 3 ≤ pts2.length := by rw [← h.length_eq]; exact hlen
    obtain ⟨piv1, rest1, heq1, hperm1, hmin1⟩ := computeConvexHull2D_long pts1 hlen
    obtain ⟨piv2, rest2, heq2, hperm2, hmin2⟩ := computeConvexHull2D_long pts2 hlen2
    have hpiveq : piv1 = piv2 := by
      apply pivotBelow_antisymm
      · exact hmin1 piv2 (h.symm.subset (hperm2.subset (List.mem_cons_self _ _)))
      · exact hmin2 piv1 (h.subset (hperm1.subset (List.mem_cons_self _ _)))
    have hrest : rest1.Perm rest2 := by
      have hc : (piv1 :: rest1).Perm (piv1 :: rest2) := by
        refine hperm1.trans (h.trans ?_)
        rw [hpiveq]
        exact hperm2.symm
      exact hc.cons_inv
    refine ⟨0, ?_⟩
    rw [List.rotate_zero, heq1, heq2]
    show grahamHull piv2 rest2 = grahamHull piv1 rest1
    rw [hpiveq]
    exact (grahamHull_perm piv2 rest1 rest2 hrest).symm
  · push_neg at hlen
    have hlen2 : pts2.length < 3 := by rw [← h.length_eq]; exact hlen
    rw [computeConvexHull2D_short pts1 hlen, computeConvexHull2D_short pts2 hlen2]
    show ∃ k, pts2 = pts1.rotate k
    match pts1, hlen, h with
    | [], _, h =>
        have : pts2 = [] := h.symm.eq_nil
        rw [this]
        exact ⟨0, rfl⟩
    | [a], _, h =>
        rw [List.perm_singleton.mp h.symm]
        exact ⟨0, rfl⟩
    | [a, b], _, h =>
        have h2 : pts2.length = 2 := by rw [← h.length_eq]; rfl
        match pts2, h2, h with
        | [c, d], _, h =>
            have hac : a ∈ [c, d] := h.subset (List.mem_cons_self _ _)
            rcases List.mem_cons.mp hac with hc | hc
            · subst hc
              have : [b].Perm [d] := h.cons_inv
              have hbd : b = d := by simpa using List.perm_singleton.mp this
              subst hbd
              exact ⟨0, rfl⟩
            · simp only [List.mem_cons, List.not_mem_nil, or_false] at hc
              subst hc
              have hcm : c ∈ [a, b] := h.symm.subset (List.mem_cons_self _ _)
              rcases List.mem_cons.mp hcm with hcc | hcc
              · subst hcc
                have : [b].Perm [c] := by
                  have := h.cons_inv
                  exact this
                have hbc : b = c := by simpa using List.perm_singleton.mp this
                subst hbc
                exact ⟨0, rfl⟩
              · simp only [List.mem_cons, List.not_mem_nil, or_false] at hcc
                subst hcc
                exact ⟨1, rfl⟩

end MeshPreview

namespace MeshPreview

theorem hull_order_invariant_witness :
    ([⟨0, 0⟩, ⟨10, 0⟩, ⟨10, 10⟩, ⟨0, 10⟩, ⟨5, 5⟩] : List Pt).Perm
        [⟨5, 5⟩, ⟨0, 10⟩, ⟨10, 10⟩, ⟨10, 0⟩, ⟨0, 0⟩] ∧
      ∃ k, (computeConvexHull2D [⟨5, 5⟩, ⟨0, 10⟩, ⟨10, 10⟩, ⟨10, 0⟩, ⟨0, 0⟩]).1
        = ((computeConvexHull2D [⟨0, 0⟩, ⟨10, 0⟩, ⟨10, 10⟩, ⟨0, 10⟩, ⟨5, 5⟩]).1).rotate k :=
  ⟨by decide,
   hull_order_invariant [⟨0, 0⟩, ⟨10, 0⟩, ⟨10, 10⟩, ⟨0, 10⟩, ⟨5, 5⟩]
     [⟨5, 5⟩, ⟨0, 10⟩, ⟨10, 10⟩, ⟨10, 0⟩, ⟨0, 0⟩] (by decide)⟩

end MeshPreview

namespace MeshPreview

/-! ### Geometric lemmas for the scan: Plücker identities and the three
new-edge lemmas -/

/-- Points with equal coordinates are equal. -/
theorem pt_ext (a b : Pt) (hx : a.x = b.x) (hy : a.y = b.y) : a = b := by
  obtain ⟨ax, ay⟩ := a
  obtain ⟨bx, byy⟩ := b
  simp only at hx hy
  rw [hx, hy]

theorem y_pos_of_class_two (piv t : Pt) (h : angClass piv t = 2) : 0 < t.y - piv.y := by
  rcases angClass_spec piv t with ⟨hc, h'⟩ | ⟨hc, h', _⟩ | ⟨hc, h'⟩ | ⟨hc, h', _⟩ <;>
    first | omega | exact h'

theorem y_zero_of_class_one (piv t : Pt) (h : angClass piv t = 1) : t.y - piv.y = 0 := by
  rcases angClass_spec piv t with ⟨hc, h'⟩ | ⟨hc, h', _⟩ | ⟨hc, h'⟩ | ⟨hc, h', _⟩ <;>
    first | omega | exact h'

theorem x_nonneg_of_class_one (piv t : Pt) (h : angClass piv t = 1) : 0 ≤ t.x - piv.x := by
  rcases angClass_spec piv t with ⟨hc, h'⟩ | ⟨hc, _, h'⟩ | ⟨hc, h'⟩ | ⟨hc, _, h'⟩ <;>
    first | omega | exact h'

theorem pivotBelow_y (piv q : Pt) (h : pivotBelow piv q) : 0 ≤ q.y - piv.y := by
  rcases h with h | ⟨h, _⟩ <;> linarith

/-- A strict angle step from a point weakly above the pivot lands in the
open upper half plane. -/
theorem angLt_snd_class2 (piv a b : Pt) (ha : pivotBelow piv a) (hbb : pivotBelow piv b)
    (h : angLt piv a b) : angClass piv b = 2 := by
  rcases pivotBelow_class piv a ha with h1 | h1 <;>
    rcases pivotBelow_class piv b hbb with h2 | h2 <;>
    rcases h with h | ⟨h, hm, _⟩ <;> omega

/-- A later-or-equal polar position seen from an open-upper-half-plane point
is again in the open upper half plane. -/
theorem polarLe_snd_class2 (piv a b : Pt) (hb : pivotBelow piv b)
    (h1 : angClass piv a = 2) (h : polarLe piv a b) : angClass piv b = 2 := by
  rcases pivotBelow_class piv b hb with h2 | h2
  · rcases h with h | ⟨⟨he, _⟩, _⟩
    · rcases h with h | ⟨h, _, _⟩ <;> omega
    · omega
  · exact h2

/-- Between points weakly above the pivot, equal polar angle means a
vanishing cross product. -/
theorem angEq_cross_zero' (piv a b : Pt) (ha : pivotBelow piv a) (_hb : pivotBelow piv b)
    (h : angEq piv a b) : crossProduct piv a b = 0 := by
  obtain ⟨hc, hx⟩ := h
  rcases pivotBelow_class piv a ha with h1 | h1
  · have h2 : angClass piv b = 1 := by omega
    have hya := y_zero_of_class_one piv a h1
    have hyb := y_zero_of_class_one piv b h2
    unfold crossProduct
    linear_combination (a.x - piv.x) * hyb - (b.x - piv.x) * hya
  · rcases hx with h | h | h
    · omega
    · omega
    · exact h

/-- The Plücker relation used when at least one pop occurred: the new top
edge is a nonnegative combination of the popped edge and the stop edge. -/
theorem plucker_pop (a t u p q : Pt) :
    crossProduct a t u * crossProduct t p q
      = crossProduct a t q * (-crossProduct t u p) + crossProduct t u q * crossProduct a t p := by
  unfold crossProduct; ring

/-- The Plücker relation used when no pop occurred, anchored at the pivot. -/
theorem plucker_nopop (piv a t p q : Pt) :
    crossProduct piv a t * crossProduct t p q
      = crossProduct piv q t * crossProduct a t p + crossProduct a t q * crossProduct piv t p := by
  unfold crossProduct; ring

/-- The Plücker relation used to push the candidate below a convex chain. -/
theorem plucker_down (piv a b c p : Pt) :
    crossProduct a b c * crossProduct piv b p
      = crossProduct a b p * crossProduct piv b c - crossProduct b c p * crossProduct piv a b := by
  unfold crossProduct; ring

/-- Express a triple product through pivot-anchored cross products. -/
theorem crossProduct_expand (piv z w q : Pt) :
    crossProduct z w q
      = crossProduct piv w q + crossProduct piv z w + crossProduct piv q z := by
  unfold crossProduct; ring

/-- Transfer of a cross product along a parallel pair (cocycle form). -/
theorem cross_transfer (piv t q p : Pt) :
    (t.y - piv.y) * crossProduct piv q p - (q.y - piv.y) * crossProduct piv t p
      = (p.y - piv.y) * crossProduct piv q t := by
  unfold crossProduct; ring

/-- Along a pivot-anchored parallel pair, the nearer point is no higher. -/
theorem parallel_dist_y (piv q t : Pt) (_hq : 0 ≤ q.y - piv.y) (ht : 0 ≤ t.y - piv.y)
    (hpar : crossProduct piv q t = 0) (hd : dist2 piv q ≤ dist2 piv t) :
    q.y - piv.y ≤ t.y - piv.y := by
  unfold crossProduct at hpar
  unfold dist2 at hd
  have key : (t.y - piv.y) * (t.y - piv.y)
        * ((q.x - piv.x) * (q.x - piv.x) + (q.y - piv.y) * (q.y - piv.y))
      = (q.y - piv.y) * (q.y - piv.y)
        * ((t.x - piv.x) * (t.x - piv.x) + (t.y - piv.y) * (t.y - piv.y)) := by
    linear_combination ((t.y - piv.y) * (q.x - piv.x) + (q.y - piv.y) * (t.x - piv.x)) * hpar
  by_contra hcon
  push_neg at hcon
  have hq2 : (t.y - piv.y) * (t.y - piv.y) < (q.y - piv.y) * (q.y - piv.y) := by nlinarith
  have hle : (t.y - piv.y) * (t.y - piv.y)
        * ((q.x - piv.x) * (q.x - piv.x) + (q.y - piv.y) * (q.y - piv.y))
      ≤ (t.y - piv.y) * (t.y - piv.y)
        * ((t.x - piv.x) * (t.x - piv.x) + (t.y - piv.y) * (t.y - piv.y)) :=
    mul_le_mul_of_nonneg_left hd (mul_self_nonneg _)
  have h2 : (t.x - piv.x) * (t.x - piv.x) + (t.y - piv.y) * (t.y - piv.y) ≤ 0 := by
    nlinarith [key, hle, hq2]
  have h4 : (q.x - piv.x) * (q.x - piv.x) + (q.y - piv.y) * (q.y - piv.y) ≤ 0 := by
    linarith
  have h3 : 0 < q.y - piv.y := by linarith
  nlinarith [mul_self_nonneg (q.x - piv.x), h4, mul_pos h3 h3]

end MeshPreview

namespace MeshPreview

/-- New-edge lemma, pop case: after a pop of `u` over `t` (with `a` directly
below `t` in the convex stack), every point on or left of both the popped
edge `(t, u)` and the edge `(a, t)` is on or left of the new edge `(t, p)`. -/
theorem scan_new_edge_pop (a t u p q : Pt)
    (hconv : 0 < crossProduct a t u)
    (hpop : crossProduct t u p ≤ 0)
    (hstop : 0 < crossProduct a t p)
    (hqe1 : 0 ≤ crossProduct a t q)
    (hqe2 : 0 ≤ crossProduct t u q) :
    0 ≤ crossProduct t p q := by
  have key := plucker_pop a t u p q
  by_contra hcon
  push_neg at hcon
  nlinarith [mul_nonneg hqe1 (neg_nonneg.mpr hpop), mul_nonneg hqe2 (le_of_lt hstop),
    mul_pos hconv (neg_pos.mpr hcon)]

/-- New-edge lemma, total-collapse case: when even the bottom stack point
`u` is popped by `p`, the sort order forces `p` collinear with `u` seen from
the pivot, and every processed point is on or left of the new bottom edge
`(piv, p)`. -/
theorem scan_new_edge_bottom (piv u p q : Pt)
    (hu : pivotBelow piv u) (hp : pivotBelow piv p) (hq : pivotBelow piv q)
    (hne : u ≠ piv)
    (hpop : crossProduct piv u p ≤ 0)
    (hup : polarLe piv u p)
    (hqe : 0 ≤ crossProduct piv u q) :
    0 ≤ crossProduct piv p q := by
  have hcu : 0 ≤ crossProduct piv u p := polarLe_cross_nonneg piv u p hu hp hup
  have hz : crossProduct piv u p = 0 := le_antisymm hpop hcu
  rcases pivotBelow_class piv u hu with h1 | h1
  · -- u on the right axis, strictly right of the pivot
    have hyu := y_zero_of_class_one piv u h1
    have hxu := x_nonneg_of_class_one piv u h1
    have hxu' : 0 < u.x - piv.x := by
      rcases lt_or_eq_of_le hxu with h | h
      · exact h
      · exact absurd (pt_ext u piv (by linarith) (by linarith)) hne
    have hkey : (u.x - piv.x) * (p.y - piv.y) = 0 := by
      unfold crossProduct at hz
      linear_combination hz + (p.x - piv.x) * hyu
    have hPy : p.y - piv.y = 0 := by
      rcases mul_eq_zero.mp hkey with h | h
      · exact absurd h (ne_of_gt hxu')
      · exact h
    have hPx : 0 ≤ p.x - piv.x := by
      rcases hp with h | ⟨h, h'⟩
      · linarith
      · linarith
    have hQy := pivotBelow_y piv q hq
    unfold crossProduct
    nlinarith [mul_nonneg hPx hQy, mul_eq_zero_of_left hPy (q.x - piv.x)]
  · -- u in the open upper half plane: p is pivot-collinear with u
    have hyu := y_pos_of_class_two piv u h1
    have hpu : crossProduct piv p u = 0 := by
      rw [crossProduct_swap, hz]; ring
    have htrans := cross_transfer piv u p q
    have hPy := pivotBelow_y piv p hp
    rw [hpu] at htrans
    by_contra hcon
    push_neg at hcon
    nlinarith [mul_nonneg hPy hqe, mul_pos hyu (neg_pos.mpr hcon)]

/-- After the pop loop stops with `0 < cross(a, t, p)`, the pushed point is
strictly later in angle than the stack top `t`. -/
theorem scan_push_angLt (piv a t p : Pt)
    (ht : pivotBelow piv t) (hp : pivotBelow piv p)
    (hA : a = piv ∨ (pivotBelow piv a ∧ angLt piv a t))
    (hstop : 0 < crossProduct a t p)
    (htp : polarLe piv t p) : angLt piv t p := by
  rcases htp with h | ⟨heq, hd⟩
  · exact h
  exfalso
  have hct : crossProduct piv t p = 0 := angEq_cross_zero' piv t p ht hp heq
  rcases hA with rfl | ⟨hpa, halt⟩
  · rw [hct] at hstop
    exact lt_irrefl _ hstop
  · have hclt : angClass piv t = 2 := angLt_snd_class2 piv a t hpa ht halt
    have hclp : angClass piv p = 2 := by
      obtain ⟨hc, _⟩ := heq
      omega
    have hTy := y_pos_of_class_two piv t hclt
    have hPy := y_pos_of_class_two piv p hclp
    have hcat : 0 ≤ crossProduct piv a t :=
      polarLe_cross_nonneg piv a t hpa ht (Or.inl halt)
    have hyle : t.y - piv.y ≤ p.y - piv.y :=
      parallel_dist_y piv t p (le_of_lt hTy) (le_of_lt hPy) hct hd
    have hexp := crossProduct_expand piv a t p
    have htrans := cross_transfer piv t a p
    have hswap : crossProduct piv p a = -crossProduct piv a p := crossProduct_swap piv a p
    rw [hct] at htrans hexp
    nlinarith [mul_pos hTy hstop, mul_nonneg (sub_nonneg.mpr hyle) hcat]

/-- New-edge lemma, no-pop case: when the candidate is pushed without any
pop, every already-processed point (which sorts no later than the top `t`)
is on or left of the new edge `(t, p)`. -/
theorem scan_new_edge_nopop (piv a t p q : Pt)
    (ht : pivotBelow piv t) (hp : pivotBelow piv p) (hq : pivotBelow piv q)
    (hA : a = piv ∨ (pivotBelow piv a ∧ angLt piv a t))
    (hstop : 0 < crossProduct a t p)
    (hqe : 0 ≤ crossProduct a t q)
    (hqt : polarLe piv q t)
    (htp : polarLe piv t p)
    ( _hqp : polarLe piv q p) :
    0 ≤ crossProduct t p q := by
  have hcqt : 0 ≤ crossProduct piv q t := polarLe_cross_nonneg piv q t hq ht hqt
  have hctp : 0 ≤ crossProduct piv t p := polarLe_cross_nonneg piv t p ht hp htp
  by_cases hav : piv = a
  · -- the bottom edge case: everything is pivot-collinear with t
    subst hav
    have hqt0 : crossProduct piv q t = 0 := by
      rw [crossProduct_swap piv q t] at hqe
      linarith
    have hexp := crossProduct_expand piv t p q
    rcases pivotBelow_class piv t ht with h1 | h1
    · -- t on the right axis: q is too
      have hyt := y_zero_of_class_one piv t h1
      have hclq : angClass piv q = 1 := by
        rcases pivotBelow_class piv q hq with h2 | h2
        · exact h2
        · exfalso
          rcases hqt with h | ⟨⟨he, _⟩, _⟩
          · rcases h with h | ⟨h, _, _⟩ <;> omega
          · omega
      have hyq := y_zero_of_class_one piv q hclq
      have hxq := x_nonneg_of_class_one piv q hclq
      have hxt := x_nonneg_of_class_one piv t h1
      have hPy := pivotBelow_y piv p hp
      have hd : dist2 piv q ≤ dist2 piv t := by
        rcases hqt with h | ⟨_, h⟩
        · exfalso
          rcases h with h | ⟨h, hm, _⟩ <;> omega
        · exact h
      unfold dist2 at hd
      have hqx : q.x - piv.x ≤ t.x - piv.x := by nlinarith
      unfold crossProduct at hexp ⊢
      nlinarith [mul_nonneg hPy (sub_nonneg.mpr hqx),
        mul_eq_zero_of_right (p.x - piv.x) hyq,
        mul_eq_zero_of_left hyt (p.x - piv.x),
        mul_eq_zero_of_left hyq (t.x - piv.x),
        mul_eq_zero_of_right (q.x - piv.x) hyt]
    · -- t in the open upper half plane
      have hTy := y_pos_of_class_two piv t h1
      rcases pivotBelow_class piv q hq with h2 | h2
      · -- q on the right axis and pivot-collinear with t: q is the pivot
        have hyq := y_zero_of_class_one piv q h2
        have hxq := x_nonneg_of_class_one piv q h2
        have hqx0 : q.x - piv.x = 0 := by
          unfold crossProduct at hqt0
          have : (q.x - piv.x) * (t.y - piv.y) = 0 := by
            linear_combination hqt0 + (t.x - piv.x) * hyq
          rcases mul_eq_zero.mp this with h | h
          · exact h
          · exact absurd h (ne_of_gt hTy)
        have hq0 : crossProduct piv p q = 0 := by
          unfold crossProduct
          linear_combination (p.x - piv.x) * hyq - (p.y - piv.y) * hqx0
        rw [hexp, hqt0, hq0]
        linarith
      · -- q in the open upper half plane, pivot-collinear and nearer than t
        have hQy := y_pos_of_class_two piv q h2
        have hd : dist2 piv q ≤ dist2 piv t := by
          rcases hqt with h | ⟨_, h⟩
          · exfalso
            rcases h with h | ⟨h, hm, hx⟩
            · omega
            · rw [hqt0] at hx
              exact lt_irrefl 0 hx
          · exact h
        have hyle : q.y - piv.y ≤ t.y - piv.y :=
          parallel_dist_y piv q t (le_of_lt hQy) (le_of_lt hTy) hqt0 hd
        have htrans := cross_transfer piv t q p
        have hswap : crossProduct piv q t = -crossProduct piv t q := crossProduct_swap piv t q
        have hswap2 : crossProduct piv p q = -crossProduct piv q p := crossProduct_swap piv q p
        by_contra hcon
        push_neg at hcon
        rw [hexp, hqt0] at hcon
        nlinarith [mul_pos hTy
            (by linarith : (0:ℚ) < -(crossProduct piv p q + crossProduct piv t p)),
          htrans, mul_eq_zero_of_right (p.y - piv.y) hqt0, hswap2,
          mul_nonneg (sub_nonneg.mpr hyle) hctp]
  · -- genuine stack point below t: the anchored Plücker relation closes it
    rcases hA with heqa | ⟨hpa, halt⟩
    · exact absurd heqa.symm hav
    have hcat : 0 < crossProduct piv a t := by
      rcases pivotBelow_class piv a hpa with h1 | h1
      · have hya := y_zero_of_class_one piv a h1
        have hxa := x_nonneg_of_class_one piv a h1
        have hclt : angClass piv t = 2 := angLt_snd_class2 piv a t hpa ht halt
        have hTy := y_pos_of_class_two piv t hclt
        have hxa' : 0 < a.x - piv.x := by
          rcases lt_or_eq_of_le hxa with h | h
          · exact h
          · exact absurd (pt_ext a piv (by linarith) (by linarith)).symm hav
        unfold crossProduct
        nlinarith [mul_pos hxa' hTy, mul_eq_zero_of_left hya (t.x - piv.x)]
      · rcases halt with h | ⟨h, hm, hx⟩
        · have := pivotBelow_class piv t ht
          omega
        · exact hx
    have key := plucker_nopop piv a t p q
    by_contra hcon
    push_neg at hcon
    nlinarith [mul_nonneg hcqt (le_of_lt hstop), mul_nonneg hqe hctp,
      mul_pos hcat (neg_pos.mpr hcon)]

/-- Downward propagation: a candidate strictly left of the top edge of a
convex, angle-monotone stack is strictly left of the edge below it. -/
theorem scan_left_of_lower_edge (piv a b c p : Pt)
    (hb : pivotBelow piv b) (hc : pivotBelow piv c) (hp : pivotBelow piv p)
    (hA : a = piv ∨ (pivotBelow piv a ∧ angLt piv a b))
    (hbc : angLt piv b c)
    (hconv : 0 < crossProduct a b c)
    (hup : 0 < crossProduct b c p)
    (hcp : polarLe piv c p) :
    0 < crossProduct a b p := by
  have hclc : angClass piv c = 2 := angLt_snd_class2 piv b c hb hc hbc
  have hclp : angClass piv p = 2 := polarLe_snd_class2 piv c p hp hclc hcp
  have hCy := y_pos_of_class_two piv c hclc
  have hPy := y_pos_of_class_two piv p hclp
  have hccp : 0 ≤ crossProduct piv c p := polarLe_cross_nonneg piv c p hc hp hcp
  by_cases hav : piv = a
  · subst hav
    -- the goal is the pivot-anchored cross of b and p
    rcases pivotBelow_class piv b hb with h1 | h1
    · -- b on the right axis; hconv forces b strictly right of the pivot
      have hyb := y_zero_of_class_one piv b h1
      have hxb := x_nonneg_of_class_one piv b h1
      have hxb' : 0 < b.x - piv.x := by
        rcases lt_or_eq_of_le hxb with h | h
        · exact h
        · exfalso
          unfold crossProduct at hconv
          nlinarith [mul_eq_zero_of_left h.symm (c.y - piv.y),
            mul_eq_zero_of_left hyb (c.x - piv.x)]
      unfold crossProduct
      nlinarith [mul_pos hxb' hPy, mul_eq_zero_of_left hyb (p.x - piv.x)]
    · have hBy := y_pos_of_class_two piv b h1
      have hcbc : 0 < crossProduct piv b c := hconv
      exact cross_trans_pos piv b c p hBy hCy hPy (le_of_lt hcbc) hccp (Or.inl hcbc)
  · rcases hA with heqa | ⟨hpa, hab⟩
    · exact absurd heqa.symm hav
    have hclb : angClass piv b = 2 := angLt_snd_class2 piv a b hpa hb hab
    have hBy := y_pos_of_class_two piv b hclb
    have hcbc : 0 < crossProduct piv b c := by
      rcases hbc with h | ⟨h, hm, hx⟩
      · omega
      · exact hx
    have hcbp : 0 < crossProduct piv b p :=
      cross_trans_pos piv b c p hBy hCy hPy (le_of_lt hcbc) hccp (Or.inl hcbc)
    have hcab : 0 ≤ crossProduct piv a b :=
      polarLe_cross_nonneg piv a b hpa hb (Or.inl hab)
    have key := plucker_down piv a b c p
    by_contra hcon
    push_neg at hcon
    nlinarith [mul_pos hconv hcbp, mul_nonneg (le_of_lt hup) hcab,
      mul_nonneg (neg_nonneg.mpr hcon) (le_of_lt hcbc)]

end MeshPreview

namespace MeshPreview

/- Elementary facts about the pivot, the comparator at the pivot itself, and
small list manipulations used by the scan induction. -/

theorem pivotBelow_refl (piv : Pt) : pivotBelow piv piv :=
  Or.inr ⟨rfl, le_refl _⟩

theorem angClass_self (piv : Pt) : angClass piv piv = 1 := by
  unfold angClass
  simp

theorem crossProduct_left_self (o b : Pt) : crossProduct o o b = 0 := by
  unfold crossProduct
  ring

theorem crossProduct_right_self (o a : Pt) : crossProduct o a o = 0 := by
  unfold crossProduct
  ring

theorem cross_rot (o a b : Pt) : crossProduct o a b = crossProduct b o a := by
  unfold crossProduct
  ring

theorem dist2_self (piv : Pt) : dist2 piv piv = 0 := by
  unfold dist2
  ring

theorem dist2_nonneg (piv a : Pt) : 0 ≤ dist2 piv a := by
  unfold dist2
  nlinarith [mul_self_nonneg (a.x - piv.x), mul_self_nonneg (a.y - piv.y)]

theorem dist2_eq_zero (piv a : Pt) (h : dist2 piv a = 0) : a = piv := by
  unfold dist2 at h
  have hxx : (a.x - piv.x) * (a.x - piv.x) = 0 :=
    le_antisymm (by nlinarith [mul_self_nonneg (a.y - piv.y)]) (mul_self_nonneg _)
  have hyy : (a.y - piv.y) * (a.y - piv.y) = 0 :=
    le_antisymm (by nlinarith [mul_self_nonneg (a.x - piv.x)]) (mul_self_nonneg _)
  have hx := mul_self_eq_zero.mp hxx
  have hy := mul_self_eq_zero.mp hyy
  exact pt_ext a piv (by linarith) (by linarith)

/-- The pivot itself sorts no later than any point above it. -/
theorem polarLe_piv_left (piv p : Pt) (hp : pivotBelow piv p) : polarLe piv piv p := by
  rcases pivotBelow_class piv p hp with h | h
  · exact Or.inr ⟨⟨by rw [angClass_self, h], Or.inl (angClass_self piv)⟩,
      by rw [dist2_self]; exact dist2_nonneg piv p⟩
  · exact Or.inl (Or.inl (by rw [angClass_self, h]; omega))

/-- A point above the pivot that sorts no later than the pivot is the pivot. -/
theorem polarLe_piv_right (piv x : Pt) (hx : pivotBelow piv x)
    (h : polarLe piv x piv) : x = piv := by
  rcases h with h | ⟨_, hd⟩
  · exfalso
    rcases h with h | ⟨he, hcl, _⟩
    · rw [angClass_self] at h
      rcases pivotBelow_class piv x hx with h1 | h1 <;> omega
    · rw [angClass_self] at he
      rcases hcl with h2 | h2 <;> omega
  · rw [dist2_self] at hd
    exact dist2_eq_zero piv x (le_antisymm hd (dist2_nonneg piv x))

/-- A non-empty suffix of a list ending at the pivot also ends at the pivot. -/
theorem suffix_concat_struct (s t : List Pt) (piv : Pt)
    (hsuf : s <:+ t ++ [piv]) (hne : s ≠ []) : ∃ t₂, s = t₂ ++ [piv] := by
  obtain ⟨pre, hpre⟩ := hsuf
  refine ⟨s.dropLast, ?_⟩
  have hnn : pre ++ s ≠ [] := by simp [hne]
  have hg : (pre ++ s).getLast hnn = s.getLast hne := by
    rw [List.getLast_append hnn]
    simp [hne]
  have hlast : s.getLast hne = piv := by
    rw [← hg]
    have h2 : (pre ++ s).getLast hnn = (t ++ [piv]).getLast (by simp) := by
      congr 1
    rw [h2]
    exact List.getLast_concat t
  rw [← hlast]
  exact (List.dropLast_append_getLast hne).symm

/-- In a two-entry stack ending at the pivot, the bottom is the pivot. -/
theorem pair_concat (b a piv : Pt) (t : List Pt) (h : [b, a] = t ++ [piv]) : a = piv := by
  rcases t with _ | ⟨x, _ | ⟨y, t₂⟩⟩
  · simpa using congrArg List.length h
  · simp at h
    exact h.2
  · have := congrArg List.length h
    simp at this

theorem dropLast_suffix (s l : List Pt) (h : s <:+ l) : s.dropLast <:+ l.dropLast := by
  obtain ⟨pre, hpre⟩ := h
  rcases s with _ | ⟨x, s'⟩
  · exact List.nil_suffix
  · refine ⟨pre, ?_⟩
    rw [← hpre]
    exact (List.dropLast_append_of_ne_nil pre (by simp)).symm

theorem convex3_tail (x : Pt) (l : List Pt) (h : Convex3 (x :: l)) : Convex3 l := by
  rcases l with _ | ⟨y, _ | ⟨z, l₂⟩⟩
  · trivial
  · trivial
  · exact h.2

/-- In a stack that ends at the pivot, has strictly increasing angles and at
most one duplicate of the pivot directly above the bottom, the point below
the top is either the pivot or a genuine point at a strictly earlier angle
than the top. -/
theorem below_fact (piv b a : Pt) (rest : List Pt)
    (hdec : ∃ t, b :: a :: rest = t ++ [piv])
    (hmem : ∀ x ∈ b :: a :: rest, pivotBelow piv x)
    (hchain : AngChainT piv (b :: a :: rest).dropLast)
    (hdup : piv ∈ (b :: a :: rest).dropLast → (b :: a :: rest).dropLast = [piv]) :
    a = piv ∨ (pivotBelow piv a ∧ angLt piv a b) := by
  rcases rest with _ | ⟨c, rest₂⟩
  · obtain ⟨t, ht⟩ := hdec
    exact Or.inl (pair_concat b a piv t ht)
  · right
    have hane : a ≠ piv := by
      intro hav
      have hmem2 : piv ∈ (b :: a :: c :: rest₂).dropLast := by
        show piv ∈ b :: (a :: c :: rest₂).dropLast
        rw [← hav]
        exact List.mem_cons_of_mem b (List.mem_cons_self a _)
      have h2 : b :: a :: (c :: rest₂).dropLast = [piv] := hdup hmem2
      simp at h2
    refine ⟨hmem a (by simp), ?_⟩
    have hchain' : List.Chain' (fun x y => angLt piv y x)
        (b :: a :: (c :: rest₂).dropLast) := hchain
    exact (List.chain'_cons.mp hchain').1

end MeshPreview

namespace MeshPreview

/-- A pushed candidate that is strictly left of the top edge of a convex,
angle-monotone stack is on or left of every stack edge. -/
theorem edges_down (piv p : Pt) (hp : pivotBelow piv p) :
    ∀ (st : List Pt),
      (∃ t, st = t ++ [piv]) →
      (∀ x ∈ st, pivotBelow piv x) →
      AngChainT piv st.dropLast →
      Convex3 st →
      (piv ∈ st.dropLast → st.dropLast = [piv]) →
      (∀ x ∈ st.dropLast, polarLe piv x p) →
      (∀ b a rest, st = b :: a :: rest → 0 < crossProduct a b p) →
      EdgesOK st p := by
  intro st
  induction st with
  | nil =>
    intro _ _ _ _ _ _ _
    exact List.chain'_nil
  | cons b rest ih =>
    intro hdec hmem hchain hconv hdup hall htop
    rcases rest with _ | ⟨a, rest₂⟩
    · exact List.chain'_singleton b
    · have hedge : 0 < crossProduct a b p := htop b a rest₂ rfl
      -- the induction hypotheses for the tail stack
      obtain ⟨t, ht⟩ := hdec
      have hdec3 : ∃ t₂, a :: rest₂ = t₂ ++ [piv] :=
        suffix_concat_struct (a :: rest₂) t piv ⟨[b], ht⟩ (by simp)
      have hmem3 : ∀ x ∈ a :: rest₂, pivotBelow piv x :=
        fun x hx => hmem x (List.mem_cons_of_mem b hx)
      have hchain3 : AngChainT piv (a :: rest₂).dropLast := List.Chain'.tail hchain
      have hconv3 : Convex3 (a :: rest₂) := convex3_tail b _ hconv
      have hdup3 : piv ∈ (a :: rest₂).dropLast → (a :: rest₂).dropLast = [piv] := by
        intro hin
        have h2 : b :: (a :: rest₂).dropLast = [piv] :=
          hdup (List.mem_cons_of_mem b hin)
        simp at h2
        rw [h2.2] at hin
        simp at hin
      have hall3 : ∀ x ∈ (a :: rest₂).dropLast, polarLe piv x p :=
        fun x hx => hall x (List.mem_cons_of_mem b hx)
      have htop3 : ∀ c d rest₃, a :: rest₂ = c :: d :: rest₃ →
          0 < crossProduct d c p := by
        intro c d rest₃ heq
        injection heq with h1 h2
        subst h1
        subst h2
        have haA : d = piv ∨ (pivotBelow piv d ∧ angLt piv d a) :=
          below_fact piv a d rest₃ hdec3 hmem3 hchain3 hdup3
        have hab : angLt piv a b := by
          have hchain' : List.Chain' (fun x y => angLt piv y x)
              (b :: a :: (d :: rest₃).dropLast) := hchain
          exact (List.chain'_cons.mp hchain').1
        have hconvT : 0 < crossProduct d a b := hconv.1
        exact scan_left_of_lower_edge piv d a b p (hmem3 a (by simp))
          (hmem b (by simp)) hp haA hab hconvT hedge
          (hall b (by show b ∈ b :: (a :: d :: rest₃).dropLast; simp))
      refine List.chain'_cons.mpr ⟨le_of_lt hedge, ?_⟩
      exact ih hdec3 hmem3 hchain3 hconv3 hdup3 hall3 htop3

/-- The cyclic edge list of a polygon satisfies a relation as soon as the
adjacent pairs form a chain and the closing pair is related. -/
theorem zip_cyclic_mem (R : Pt → Pt → Prop) :
    ∀ (l : List Pt) (first : Pt), List.Chain' R l →
      (∀ hne : l ≠ [], R (l.getLast hne) first) →
      ∀ e ∈ l.zip (l.tail ++ [first]), R e.1 e.2 := by
  intro l
  induction l with
  | nil =>
    intro first _ _ e he
    simp at he
  | cons x rest ih =>
    intro first hchain hclose e he
    rcases rest with _ | ⟨y, rest₂⟩
    · simp at he
      rw [he]
      simpa using hclose (by simp)
    · simp only [List.tail_cons, List.zip_cons_cons, List.cons_append] at he
      rcases List.mem_cons.mp he with h | h
      · rw [h]
        exact (List.chain'_cons.mp hchain).1
      · refine ih first (List.Chain'.tail hchain) ?_ e h
        intro hne
        have hg : (y :: rest₂).getLast hne = (x :: y :: rest₂).getLast (by simp) :=
          (List.getLast_cons hne).symm
        rw [hg]
        exact hclose (by simp)

end MeshPreview

namespace MeshPreview

/-- The heart of the scan correctness: one `keep` step, carried out on any
stack reachable by popping from a stack `stO` that satisfied the invariant,
preserves every structural clause.  The final disjunctive hypothesis links
the current stack to the processed points: either no pop has happened yet
(every processed point sorts no later than the top), or some point `u` has
been popped and the recorded facts about the popped edge hold. -/
theorem keep_aux (piv p : Pt) (D stO : List Pt)
    (hSp : pivotBelow piv p)
    (hSD : ∀ q ∈ D, pivotBelow piv q)
    (hDp : ∀ q ∈ D, polarLe piv q p)
    (hdupO : piv ∈ stO.dropLast → stO.dropLast = [piv]) :
    ∀ (n : ℕ) (st : List Pt), st.length ≤ n → st <:+ stO →
      (∃ t, st = t ++ [piv]) →
      (∀ x ∈ st, x = piv ∨ x ∈ D) →
      AngChainT piv st.dropLast →
      Convex3 st →
      (∀ q ∈ D, EdgesOK st q) →
      EdgesOK st piv →
      (piv ∈ st.dropLast → st.dropLast = [piv]) →
      ((∀ q ∈ D, polarLe piv q st.headI) ∨
        (st.length < stO.length ∧ ∃ u, pivotBelow piv u ∧ polarLe piv u p ∧
          crossProduct st.headI u p ≤ 0 ∧
          (st.headI = piv ∨ angLt piv st.headI u) ∧
          (∀ q ∈ D, 0 ≤ crossProduct st.headI u q) ∧
          (u = piv → ∀ q ∈ D, q = piv) ∧
          (∀ a rest, st.tail = a :: rest → 0 < crossProduct a st.headI u))) →
      KeepOut piv p D st (keep st p) := by
  intro n
  induction n with
  | zero =>
    intro st hlen _ hdec _ _ _ _ _ _ _
    obtain ⟨t, ht⟩ := hdec
    rw [ht] at hlen
    simp at hlen
  | succ n ih =>
    intro st hlen hsuf hdec hmem hchain hconv hedges hedgesPiv hdup hlink
    rcases st with _ | ⟨b, _ | ⟨a, rest⟩⟩
    · obtain ⟨t, ht⟩ := hdec
      simp at ht
    · -- singleton stack: it is the pivot alone, and the candidate is pushed
      obtain ⟨t, ht⟩ := hdec
      have hbpiv : b = piv := by
        rcases t with _ | ⟨x, t₂⟩
        · simpa using ht
        · have := congrArg List.length ht
          simp at this
      have hpivb : piv = b := hbpiv.symm
      subst hpivb
      have hkeep : keep [piv] p = [p, piv] := rfl
      rw [hkeep]
      refine ⟨List.suffix_refl [piv], rfl, by simp, List.chain'_singleton p, trivial,
        ?_, ?_, ?_, ?_⟩
      · -- processed points are on or left of the single new edge
        intro q hq
        refine List.chain'_cons.mpr ⟨?_, List.chain'_singleton piv⟩
        rcases hlink with h | ⟨_, u, huB, hup, hpop, _, hqe, hdupu, _⟩
        · have hqpiv : q = piv := polarLe_piv_right piv q (hSD q hq) (h q hq)
          rw [hqpiv, crossProduct_right_self]
        · by_cases huv : u = piv
          · have hqpiv : q = piv := hdupu huv q hq
            rw [hqpiv, crossProduct_right_self]
          · exact scan_new_edge_bottom piv u p q huB hSp (hSD q hq) huv hpop hup (hqe q hq)
      · exact List.chain'_cons.mpr ⟨le_of_eq (crossProduct_self piv p).symm,
          List.chain'_singleton piv⟩
      · exact List.chain'_cons.mpr ⟨le_of_eq (crossProduct_right_self piv p).symm,
          List.chain'_singleton piv⟩
      · intro hin
        simp at hin
        rw [hin]
        rfl
    · -- stack of height at least two
      have hmemB : ∀ x ∈ b :: a :: rest, pivotBelow piv x := by
        intro x hx
        rcases hmem x hx with h | h
        · rw [h]; exact pivotBelow_refl piv
        · exact hSD x h
      have haA : a = piv ∨ (pivotBelow piv a ∧ angLt piv a b) :=
        below_fact piv b a rest hdec hmemB hchain hdup
      have hbB : pivotBelow piv b := hmemB b (by simp)
      have hb_p : polarLe piv b p := by
        rcases hmem b (by simp) with h | h
        · rw [h]; exact polarLe_piv_left piv p hSp
        · exact hDp b h
      by_cases hcond : crossProduct a b p ≤ 0
      · -- pop the top and recurse on the shorter stack
        have hkeep : keep (b :: a :: rest) p = keep (a :: rest) p := by
          simp only [keep]
          rw [if_pos hcond]
        obtain ⟨t, ht⟩ := hdec
        have hlen3 : (a :: rest).length ≤ n := by
          simp only [List.length_cons] at hlen ⊢
          omega
        have hsuf3 : (a :: rest) <:+ stO := (List.suffix_cons b (a :: rest)).trans hsuf
        have hdec3 : ∃ t₂, a :: rest = t₂ ++ [piv] :=
          suffix_concat_struct (a :: rest) t piv ⟨[b], ht⟩ (by simp)
        have hmem3 : ∀ x ∈ a :: rest, x = piv ∨ x ∈ D :=
          fun x hx => hmem x (List.mem_cons_of_mem b hx)
        have hchain3 : AngChainT piv (a :: rest).dropLast := List.Chain'.tail hchain
        have hconv3 : Convex3 (a :: rest) := convex3_tail b _ hconv
        have hedges3 : ∀ q ∈ D, EdgesOK (a :: rest) q :=
          fun q hq => List.Chain'.tail (hedges q hq)
        have hedgesPiv3 : EdgesOK (a :: rest) piv := List.Chain'.tail hedgesPiv
        have hdup3 : piv ∈ (a :: rest).dropLast → (a :: rest).dropLast = [piv] := by
          intro hin
          have h2 : b :: (a :: rest).dropLast = [piv] :=
            hdup (List.mem_cons_of_mem b hin)
          simp at h2
          rw [h2.2] at hin
          simp at hin
        have hlink3 : (∀ q ∈ D, polarLe piv q (a :: rest).headI) ∨
            ((a :: rest).length < stO.length ∧ ∃ u, pivotBelow piv u ∧ polarLe piv u p ∧
              crossProduct (a :: rest).headI u p ≤ 0 ∧
              ((a :: rest).headI = piv ∨ angLt piv (a :: rest).headI u) ∧
              (∀ q ∈ D, 0 ≤ crossProduct (a :: rest).headI u q) ∧
              (u = piv → ∀ q ∈ D, q = piv) ∧
              (∀ a' rest', (a :: rest).tail = a' :: rest' →
                0 < crossProduct a' (a :: rest).headI u)) := by
        -- the popped point b becomes the recorded point u
          refine Or.inr ⟨?_, b, hbB, hb_p, hcond, ?_, ?_, ?_, ?_⟩
          · have hle := List.IsSuffix.length_le hsuf
            simp only [List.length_cons] at hle ⊢
            omega
          · rcases haA with h | ⟨_, h⟩
            · exact Or.inl h
            · exact Or.inr h
          · intro q hq
            exact (List.chain'_cons.mp (hedges q hq)).1
          · intro hbpiv q hq
            rcases hlink with h | ⟨hlt, _⟩
            · exact polarLe_piv_right piv q (hSD q hq) (hbpiv ▸ h q hq)
            · exfalso
              have hmemO : piv ∈ stO.dropLast := by
                refine (dropLast_suffix _ _ hsuf).subset ?_
                show piv ∈ b :: (a :: rest).dropLast
                rw [← hbpiv]
                exact List.mem_cons_self b _
              have hO := hdupO hmemO
              have h1 : stO.dropLast.length = 1 := by rw [hO]; rfl
              rw [List.length_dropLast] at h1
              have hle := List.IsSuffix.length_le hsuf
              simp only [List.length_cons] at hle hlt
              omega
          · intro a' rest' heq
            simp only [List.tail_cons] at heq
            subst heq
            exact hconv.1
        have hout := ih (a :: rest) hlen3 hsuf3 hdec3 hmem3 hchain3 hconv3
          hedges3 hedgesPiv3 hdup3 hlink3
        rw [hkeep]
        exact ⟨hout.tail_suf.trans (List.suffix_cons b (a :: rest)), hout.head_eq,
          hout.tail_ne, hout.chain, hout.conv, hout.edges, hout.edgesP,
          hout.edgesPiv, hout.dupNew⟩
      · -- the pop loop stops here: push the candidate
        have hstop : 0 < crossProduct a b p := lt_of_not_le hcond
        have hkeep : keep (b :: a :: rest) p = p :: b :: a :: rest := by
          simp only [keep]
          rw [if_neg hcond]
        rw [hkeep]
        have hnotin : piv ∈ (b :: a :: rest).dropLast → False := by
          intro hin2
          have h2 : b :: (a :: rest).dropLast = [piv] := hdup hin2
          simp at h2
          obtain ⟨hb_piv, hdl⟩ := h2
          have hrest : rest = [] := by
            rcases rest with _ | ⟨c, r₂⟩
            · rfl
            · have := congrArg List.length hdl
              rw [List.length_dropLast] at this
              simp at this
          subst hrest
          obtain ⟨t, ht⟩ := hdec
          have hapiv := pair_concat b a piv t ht
          rw [hapiv, hb_piv, crossProduct_left_self] at hstop
          exact lt_irrefl 0 hstop
        refine ⟨List.suffix_refl _, rfl, by simp, ?_, ⟨hstop, hconv⟩, ?_, ?_, ?_, ?_⟩
        · -- the new top is at a strictly later angle than the old one
          have hang : angLt piv b p :=
            scan_push_angLt piv a b p hbB hSp haA hstop hb_p
          exact List.chain'_cons.mpr ⟨hang, hchain⟩
        · -- every processed point is on or left of the new edge
          intro q hq
          refine List.chain'_cons.mpr ⟨?_, hedges q hq⟩
          have hqe_ab : 0 ≤ crossProduct a b q := (List.chain'_cons.mp (hedges q hq)).1
          rcases hlink with h | ⟨_, u, _, _, hpop, _, hqe, _, hconvu⟩
          · exact scan_new_edge_nopop piv a b p q hbB hSp (hSD q hq) haA hstop
              hqe_ab (h q hq) hb_p (hDp q hq)
          · have hconvT : 0 < crossProduct a b u := hconvu a rest rfl
            exact scan_new_edge_pop a b u p q hconvT hpop hstop hqe_ab (hqe q hq)
        · -- the pushed point is on or left of every edge, including its own
          refine List.chain'_cons.mpr ⟨le_of_eq (crossProduct_self b p).symm, ?_⟩
          refine edges_down piv p hSp (b :: a :: rest) hdec hmemB hchain hconv hdup ?_ ?_
          · intro x hx
            rcases hmem x ((List.dropLast_sublist _).subset hx) with h | h
            · rw [h]; exact polarLe_piv_left piv p hSp
            · exact hDp x h
          · intro b' a' rest' heq
            injection heq with h1 h2
            injection h2 with h3 h4
            subst h1
            subst h3
            exact hstop
        · -- the pivot is on or left of the new edge
          refine List.chain'_cons.mpr ⟨?_, hedgesPiv⟩
          rw [cross_rot b p piv]
          exact polarLe_cross_nonneg piv b p hbB hSp hb_p
        · -- no new duplicate of the pivot can appear above the bottom
          intro hin
          exfalso
          rcases List.mem_cons.mp hin with h | h
          · -- the candidate is a duplicate of the pivot: the whole stack is
            have hbpiv : b = piv := by
              rcases hmem b (by simp) with h2 | h2
              · exact h2
              · exact polarLe_piv_right piv b (hSD b h2) (h ▸ hDp b h2)
            refine hnotin ?_
            show piv ∈ b :: (a :: rest).dropLast
            rw [← hbpiv]
            exact List.mem_cons_self b _
          · exact hnotin h

end MeshPreview

namespace MeshPreview

/-- One full iteration of the scan loop preserves the invariant, with the
candidate appended to the processed points. -/
theorem keep_step (piv p : Pt) (D st : List Pt)
    (hSp : pivotBelow piv p)
    (hSD : ∀ q ∈ D, pivotBelow piv q)
    (hDp : ∀ q ∈ D, polarLe piv q p)
    (hinv : ScanInv piv D st) :
    ScanInv piv (D ++ [p]) (keep st p) := by
  have hout := keep_aux piv p D st hSp hSD hDp hinv.dupTop st.length st (le_refl _)
    (List.suffix_refl st) hinv.decomp hinv.mem hinv.chain hinv.conv hinv.edges
    hinv.edgesPiv hinv.dupTop (Or.inl hinv.top)
  obtain ⟨t, ht⟩ := hinv.decomp
  obtain ⟨t₂, ht₂⟩ := suffix_concat_struct (keep st p).tail t piv
    (ht ▸ hout.tail_suf) hout.tail_ne
  refine ⟨⟨p :: t₂, ?_⟩, ?_, ?_, hout.chain, hout.conv, ?_, hout.edgesPiv, hout.dupNew⟩
  · rw [hout.head_eq, ht₂]
    rfl
  · intro x hx
    rw [hout.head_eq] at hx
    rcases List.mem_cons.mp hx with h | h
    · right
      simp [h]
    · rcases hinv.mem x (hout.tail_suf.subset h) with h2 | h2
      · exact Or.inl h2
      · right
        simp [h2]
  · intro q hq
    rw [hout.head_eq]
    rcases List.mem_append.mp hq with h | h
    · exact hDp q h
    · simp at h
      rw [h]
      exact polarLe_refl piv p
  · intro q hq
    rcases List.mem_append.mp hq with h | h
    · exact hout.edges q h
    · simp at h
      rw [h]
      exact hout.edgesP

/-- The scan invariant holds after folding `keep` over any sorted list of
points above the pivot, starting from the stack `[piv]`. -/
theorem scan_inv (piv : Pt) (S : List Pt)
    (hSB : ∀ q ∈ S, pivotBelow piv q)
    (hsorted : List.Pairwise (polarLe piv) S) :
    ScanInv piv S (S.foldl keep [piv]) := by
  induction S using List.reverseRecOn with
  | nil =>
    refine ⟨⟨[], rfl⟩, ?_, ?_, List.chain'_nil, trivial, ?_, List.chain'_singleton piv, ?_⟩
    · intro x hx
      simp at hx
      exact Or.inl hx
    · intro q hq
      simp at hq
    · intro q hq
      simp at hq
    · intro h
      simp at h
  | append_singleton S p ih =>
    rw [List.foldl_append]
    have hsp := List.pairwise_append.mp hsorted
    exact keep_step piv p S (S.foldl keep [piv])
      (hSB p (by simp))
      (fun q hq => hSB q (by simp [hq]))
      (fun q hq => hsp.2.2 q hq p (by simp))
      (ih (fun q hq => hSB q (by simp [hq])) hsp.1)

end MeshPreview

namespace MeshPreview

theorem getLast_congr_list (l₁ l₂ : List Pt) (h : l₁ = l₂) (h₁ : l₁ ≠ []) (h₂ : l₂ ≠ []) :
    l₁.getLast h₁ = l₂.getLast h₂ := by
  subst h
  rfl

/-- Any processed point, and the pivot, lies on or inside the polygon read
off a stack satisfying the scan invariant. -/
theorem inside_of_inv (piv : Pt) (D st : List Pt)
    (hSD : ∀ x ∈ D, pivotBelow piv x)
    (hinv : ScanInv piv D st) :
    ∀ q, (q ∈ D ∨ q = piv) → insideHull st.reverse q := by
  obtain ⟨t, ht⟩ := hinv.decomp
  intro q hq
  have hedges : EdgesOK st q := by
    rcases hq with h | h
    · exact hinv.edges q h
    · rw [h]
      exact hinv.edgesPiv
  have hclose0 : 0 ≤ crossProduct st.headI piv q := by
    rcases hq with h | h
    · have hqb : pivotBelow piv q := hSD q h
      have htb : pivotBelow piv st.headI := by
        have hmemH : st.headI ∈ st := by
          rw [ht]
          rcases t with _ | ⟨x, t₂⟩ <;> simp
        rcases hinv.mem _ hmemH with h2 | h2
        · rw [h2]
          exact pivotBelow_refl piv
        · exact hSD _ h2
      have h1 : 0 ≤ crossProduct piv q st.headI :=
        polarLe_cross_nonneg piv q st.headI hqb htb (hinv.top q h)
      rw [cross_rot st.headI piv q, cross_rot q st.headI piv]
      exact h1
    · rw [h, crossProduct_self]
  have hrevne : st.reverse ≠ [] := by
    rw [ht]
    simp
  have hgl : ∀ hne : st.reverse ≠ [], st.reverse.getLast hne = st.headI := by
    intro hne
    have hstne : st ≠ [] := by
      rw [ht]; simp
    rw [List.getLast_reverse hne]
    rcases st with _ | ⟨x, st₂⟩
    · exact absurd rfl hstne
    · rfl
  intro e he
  -- rewrite the cyclic pair list as a zip against the rotated list
  rcases hrev : st.reverse with _ | ⟨h0, hrest⟩
  · exact absurd hrev hrevne
  have hcp : cyclicPairs (h0 :: hrest) = (h0 :: hrest).zip (hrest ++ [h0]) := rfl
  rw [hrev, hcp] at he
  have hh0 : h0 = piv := by
    have : st.reverse = piv :: t.reverse := by
      rw [ht]
      simp
    rw [hrev] at this
    exact (List.cons.injEq _ _ _ _ ▸ this).1
  refine zip_cyclic_mem (fun x y => 0 ≤ crossProduct x y q) (h0 :: hrest) h0 ?_ ?_ e he
  · have hch : List.Chain' (fun x y => 0 ≤ crossProduct x y q) st.reverse :=
      List.chain'_reverse.mpr hedges
    rw [hrev] at hch
    exact hch
  · intro hne
    have hg2 : (h0 :: hrest).getLast hne = st.reverse.getLast hrevne :=
      getLast_congr_list _ _ hrev.symm hne hrevne
    rw [hg2, hgl hrevne, hh0]
    exact hclose0

end MeshPreview

namespace MeshPreview

/-- C3: whenever the hull builder returns at least three vertices, every
input point lies on or inside the returned convex polygon; and for the
10×10 square corners plus the interior point `(5, 5)`, the returned hull is
exactly the four corners (counter-clockwise from the pivot), so it has four
vertices and excludes the interior point. -/
theorem hull_contains_all_points :
    (∀ pts : List Pt, 3 ≤ (computeConvexHull2D pts).1.length →
      ∀ q ∈ pts, insideHull (computeConvexHull2D pts).1 q) ∧
    (computeConvexHull2D
        [⟨0, 0⟩, ⟨10, 0⟩, ⟨10, 10⟩, ⟨0, 10⟩, ⟨5, 5⟩]).1
      = [⟨0, 0⟩, ⟨10, 0⟩, ⟨10, 10⟩, ⟨0, 10⟩] := by
  constructor
  · intro pts hlen3 q hq
    by_cases hshort : pts.length < 3
    · exfalso
      rw [computeConvexHull2D_short pts hshort] at hlen3
      simp at hlen3
      omega
    · push_neg at hshort
      obtain ⟨piv, rest, hcomp, hperm, hbelow⟩ := computeConvexHull2D_long pts hshort
      rw [hcomp]
      haveI : IsTotal Pt (polarLe piv) := ⟨polarLe_total piv⟩
      haveI : IsTrans Pt (polarLe piv) := ⟨polarLe_trans piv⟩
      have hSB : ∀ x ∈ List.insertionSort (polarLe piv) rest, pivotBelow piv x := by
        intro x hx
        have hx2 : x ∈ rest := (List.perm_insertionSort (polarLe piv) rest).subset hx
        exact hbelow x (hperm.subset (List.mem_cons_of_mem piv hx2))
      have hsorted : List.Pairwise (polarLe piv)
          (List.insertionSort (polarLe piv) rest) :=
        List.sorted_insertionSort (polarLe piv) rest
      have hins := inside_of_inv piv (List.insertionSort (polarLe piv) rest)
        ((List.insertionSort (polarLe piv) rest).foldl keep [piv]) hSB
        (scan_inv piv (List.insertionSort (polarLe piv) rest) hSB hsorted)
      have hqm : q ∈ piv :: rest := hperm.symm.subset hq
      show insideHull ((List.insertionSort (polarLe piv) rest).foldl keep [piv]).reverse q
      rcases List.mem_cons.mp hqm with h | h
      · exact hins q (Or.inr h)
      · exact hins q (Or.inl ((List.perm_insertionSort (polarLe piv) rest).symm.subset h))
  · with_unfolding_all decide

/-- The containment statement of `hull_contains_all_points` instantiated on
the square-with-center input: the interior point `(5, 5)` lies inside the
returned hull. -/
theorem hull_contains_all_points_witness :
    insideHull (computeConvexHull2D
      [⟨0, 0⟩, ⟨10, 0⟩, ⟨10, 10⟩, ⟨0, 10⟩, ⟨5, 5⟩]).1 ⟨5, 5⟩ :=
  hull_contains_all_points.1
    [⟨0, 0⟩, ⟨10, 0⟩, ⟨10, 10⟩, ⟨0, 10⟩, ⟨5, 5⟩]
    (by with_unfolding_all decide)
    ⟨5, 5⟩ (by with_unfolding_all decide)

end MeshPreview
